import Mathlib

/-!
# Sort-Visualizer: swap-sequence generators and playback

A shallow embedding of `src/Main.cpp`.

* `std::array<std::pair<int, Color>, ARR_SIZE>` is a list of `(rank, colour)` pairs; the
  compile-time size `ARR_SIZE` of the C++ type is the length of the list, so every statement
  below holds for every size `N`, the source's `ARR_SIZE = 200` included.
* `std::queue<SwapPair>` is a list: `push` appends at the end, `front`/`pop` take the head.
* An out-of-range array access is undefined behaviour in C++; here it makes the operation
  return `none`.  A result `some _` therefore also says that every access was in range.
* `int` loop counters stay within `[0, ARR_SIZE]` and ranks are only compared, never computed
  with, so no machine arithmetic can overflow; counters are `Nat`, ranks and queued indices `Int`.
-/

namespace SortVisualizer

/-! ## Data model -/

/-- The raylib `Color`: four 8-bit channels. -/
structure Color where
  r : Nat
  g : Nat
  b : Nat
  a : Nat
deriving DecidableEq, Repr

/-- One entry `std::pair<int, Color>` of the visualised array: `first` is the rank. -/
abbrev Element := Int × Color

/-- The source's `typedef std::array<std::pair<int, Color>, ARR_SIZE> VisualisedArray`. -/
abbrev VisualisedArray := List Element

/-- The source's `typedef std::pair<int, int> SwapPair`. -/
abbrev SwapPair := Int × Int

/-- The source's `typedef std::queue<SwapPair> SwapQueue`; the head of the list is the front. -/
abbrev SwapQueue := List SwapPair

/-- The source's `constexpr int ARR_SIZE = 200`. -/
def ARR_SIZE : Nat := 200

/-! ## `permutate` -/

/-- The source's `permutate(array, i1, i2)`:
`temp = array[i1]; array[i1] = array[i2]; array[i2] = temp;`.
An index outside `[0, size)` is undefined behaviour in the source and gives `none` here. -/
def permutate (array : VisualisedArray) (i1 i2 : Int) : Option VisualisedArray :=
  if i1 < 0 ∨ i2 < 0 then none
  else
    match array[i1.toNat]?, array[i2.toNat]? with
    | some temp, some x => some ((array.set i1.toNat x).set i2.toNat temp)
    | _, _ => none

/-! ## The generators -/

/-- Body of the inner loop of `generateBubbleSort` at index `j`, on the pair
(working copy, queue):
`if (array_copy[j].first <= array_copy[j + 1].first) continue;`
`permutate(array_copy, j, j + 1); swap_queue.push(SwapPair(j, j + 1));`. -/
def bubbleBody (st : VisualisedArray × SwapQueue) (j : Nat) :
    Option (VisualisedArray × SwapQueue) :=
  match st.1[j]?, st.1[j + 1]? with
  | some x, some y =>
    if x.1 ≤ y.1 then some st
    else
      match permutate st.1 (j : Int) ((j : Int) + 1) with
      | some c => some (c, st.2 ++ [((j : Int), (j : Int) + 1)])
      | none => none
  | _, _ => none

/-- Inner loop of `generateBubbleSort`: `for (int j = 0; j < i; j++)`. -/
def bubbleInner (st : VisualisedArray × SwapQueue) (i : Nat) :
    Option (VisualisedArray × SwapQueue) :=
  (List.range i).foldlM bubbleBody st

/-- Outer loop of `generateBubbleSort`, run on the pair (working copy, queue):
`for (int i = ARR_SIZE - 1; i >= 0; i--)`, the size being that of the array.
The result is the final working copy together with the final queue. -/
def bubbleLoops (st : VisualisedArray × SwapQueue) : Option (VisualisedArray × SwapQueue) :=
  (List.range st.1.length).reverse.foldlM bubbleInner st

/-- The source's `generateBubbleSort(array, swap_queue)`: the array is read only; the queue
passed in by reference (`_swap_queue`, its contents before the call) is reset and then
filled; the value returned is the queue after the call. -/
def generateBubbleSort (array : VisualisedArray) (_swap_queue : SwapQueue) :
    Option SwapQueue :=
  let array_copy := array
  let swap_queue : SwapQueue := [] -- reset queue
  (bubbleLoops (array_copy, swap_queue)).map Prod.snd

/-- Body of the inner loop of `generateInsertionSort` at index `j` (`j > 0`):
`if (array_copy[j - 1].first <= array_copy[j].first) continue;`
`permutate(array_copy, j, j - 1); swap_queue.push(SwapPair(j, j - 1));`. -/
def insertionBody (st : VisualisedArray × SwapQueue) (j : Nat) :
    Option (VisualisedArray × SwapQueue) :=
  match st.1[j - 1]?, st.1[j]? with
  | some x, some y =>
    if x.1 ≤ y.1 then some st
    else
      match permutate st.1 (j : Int) ((j : Int) - 1) with
      | some c => some (c, st.2 ++ [((j : Int), (j : Int) - 1)])
      | none => none
  | _, _ => none

/-- Inner loop of `generateInsertionSort`: `for (int j = i; j > 0; j--)`, that is
`j = i, i - 1, ..., 1`. -/
def insertionInner (st : VisualisedArray × SwapQueue) (i : Nat) :
    Option (VisualisedArray × SwapQueue) :=
  ((List.range i).reverse.map (· + 1)).foldlM insertionBody st

/-- Outer loop of `generateInsertionSort`, run on the pair (working copy, queue):
`for (int i = 0; i < ARR_SIZE; i++)`. -/
def insertionLoops (st : VisualisedArray × SwapQueue) : Option (VisualisedArray × SwapQueue) :=
  (List.range st.1.length).foldlM insertionInner st

/-- The source's `generateInsertionSort(array, swap_queue)`, with the same conventions as
`generateBubbleSort`. -/
def generateInsertionSort (array : VisualisedArray) (_swap_queue : SwapQueue) :
    Option SwapQueue :=
  let array_copy := array
  let swap_queue : SwapQueue := [] -- reset queue
  (insertionLoops (array_copy, swap_queue)).map Prod.snd

/-- Replaying a swap list in order with `permutate`, as the playback does one swap a frame. -/
def replay (array : VisualisedArray) (swaps : SwapQueue) : Option VisualisedArray :=
  swaps.foldlM (fun a sw => permutate a sw.1 sw.2) array

/-! ## The event loop of `main` -/

/-- The mutable locals of `main` that the loop carries from frame to frame. -/
structure State where
  array : VisualisedArray
  swap_queue : SwapQueue
  isVertical : Bool
  shuffled : Bool
deriving DecidableEq, Repr

/-- What `GetKeyPressed()` returns in a frame, as far as the `switch` tells it apart.
`KEY_ZERO` carries the arrangement that `std::random_shuffle` leaves in the array: the
library call is random, so its outcome is an input of the model (see `ValidKey`). -/
inductive Key where
  | KEY_SPACE
  | KEY_ZERO (shuffledArray : VisualisedArray)
  | KEY_ONE
  | KEY_TWO
  | other
deriving DecidableEq, Repr

/-- The contract of `std::random_shuffle`: the outcome is a rearrangement of the elements
of the range.  The other keys have no side condition. -/
def ValidKey (s : State) : Key → Prop
  | Key.KEY_ZERO shuffledArray => shuffledArray.Perm s.array
  | _ => True

instance (s : State) (k : Key) : Decidable (ValidKey s k) := by
  cases k <;> unfold ValidKey <;> infer_instance

/-- The initialisation of `main`: `array[i].first = i + 1`, `array[i].second` the colour
computed for index `i`, the queue empty, `isVertical = true`, `shuffled = false`.
The colour gradient is computed in `float` in the source; it is the parameter `colorAt`,
and the size is the parameter `n` (`ARR_SIZE` in the source). -/
def initState (colorAt : Nat → Color) (n : Nat) : State :=
  { array := (List.range n).map (fun (i : Nat) => ((i : Int) + 1, colorAt i))
    swap_queue := []
    isVertical := true
    shuffled := false }

/-- The `switch (GetKeyPressed())` of the event loop. -/
def handleKey (s : State) : Key → Option State
  | Key.KEY_SPACE => some { s with isVertical := !s.isVertical }
  | Key.KEY_ZERO shuffledArray =>
    some { s with array := shuffledArray, swap_queue := [], shuffled := true }
  | Key.KEY_ONE =>
    if s.shuffled then
      match generateBubbleSort s.array s.swap_queue with
      | some q => some { s with swap_queue := q, shuffled := false }
      | none => none
    else some s
  | Key.KEY_TWO =>
    if s.shuffled then
      match generateInsertionSort s.array s.swap_queue with
      | some q => some { s with swap_queue := q, shuffled := false }
      | none => none
    else some s
  | Key.other => some s

/-- The "Handle swap queue" part of a frame.  With a non-empty queue the front swap is
popped, handed to the drawing routine as `current_swap` and applied with `permutate`; with
an empty queue the drawing routine gets `SwapPair(-1, -1)`.  The result is the state after
the frame and the `current_swap` that was drawn. -/
def tick (s : State) : Option (State × SwapPair) :=
  match s.swap_queue with
  | current_swap :: rest =>
    match permutate s.array current_swap.1 current_swap.2 with
    | some a => some ({ s with array := a, swap_queue := rest }, current_swap)
    | none => none
  | [] => some (s, (-1, -1))

/-- Whether a frame with this state draws the text "SORTED!": the queue is empty at the
"Handle swap queue" test and `shuffled` is false. -/
def drawsSorted (s : State) : Bool :=
  s.swap_queue.isEmpty && !s.shuffled

/-- One iteration of the event loop: the key handling, then the swap queue handling. -/
def frame (s : State) (k : Key) : Option (State × SwapPair) :=
  match handleKey s k with
  | some s1 => tick s1
  | none => none

/-- The state after `m` consecutive per-frame ticks with no key handled in between. -/
def ticks : Nat → State → Option State
  | 0, s => some s
  | m + 1, s =>
    match tick s with
    | some (s1, _) => ticks m s1
    | none => none

/-- States the program can be in: the initial state, and every state that a key handling
or a per-frame tick produces from a reachable state. -/
inductive Reachable (colorAt : Nat → Color) (n : Nat) : State → Prop where
  | init : Reachable colorAt n (initState colorAt n)
  | key (s s1 : State) (k : Key) :
      Reachable colorAt n s → ValidKey s k → handleKey s k = some s1 → Reachable colorAt n s1
  | tick (s s1 : State) (cur : SwapPair) :
      Reachable colorAt n s → tick s = some (s1, cur) → Reachable colorAt n s1

/-! ## Specification vocabulary -/

/-- The ranks of an array, position by position. -/
def ranks (array : VisualisedArray) : List Int :=
  array.map Prod.fst

/-- The ranks `1, 2, ..., n` in ascending order. -/
def ascendingRanks (n : Nat) : List Int :=
  (List.range n).map (fun (i : Nat) => (i : Int) + 1)

/-- The array holds each rank of `1..N` exactly once, `N` being its size. -/
def IsArrangement (array : VisualisedArray) : Prop :=
  (ranks array).Perm (ascendingRanks array.length)

instance (array : VisualisedArray) : Decidable (IsArrangement array) := by
  unfold IsArrangement; infer_instance

/-- Ascending rank order: no rank is larger than a rank at a later position. -/
def Ascending (array : VisualisedArray) : Prop :=
  (ranks array).Pairwise (· ≤ ·)

instance (array : VisualisedArray) : Decidable (Ascending array) := by
  unfold Ascending; infer_instance

/-! ## Definitions used in the proofs -/

/-- The exchange of positions `i` and `j`, the pure content of `permutate` on in-range
indices; the list is returned as it is when an index is out of range. -/
def swapAt (array : VisualisedArray) (i j : Nat) : VisualisedArray :=
  match array[i]?, array[j]? with
  | some temp, some x => (array.set i x).set j temp
  | _, _ => array

/-- The rank at a position (`0` outside the array). -/
def rankAt (array : VisualisedArray) (k : Nat) : Int :=
  match array[k]? with
  | some x => x.1
  | none => 0

/-- The inner-loop body of `generateBubbleSort` on in-range indices, without the checks. -/
def bubbleBodyP (st : VisualisedArray × SwapQueue) (j : Nat) : VisualisedArray × SwapQueue :=
  if rankAt st.1 j ≤ rankAt st.1 (j + 1) then st
  else (swapAt st.1 j (j + 1), st.2 ++ [((j : Int), (j : Int) + 1)])

/-- The inner-loop body of `generateInsertionSort` on in-range indices, without the checks. -/
def insertionBodyP (st : VisualisedArray × SwapQueue) (j : Nat) : VisualisedArray × SwapQueue :=
  if rankAt st.1 (j - 1) ≤ rankAt st.1 j then st
  else (swapAt st.1 j (j - 1), st.2 ++ [((j : Int), (j : Int) - 1)])

/-- The inner loop of `generateBubbleSort`, without the checks. -/
def bubbleInnerP (st : VisualisedArray × SwapQueue) (i : Nat) : VisualisedArray × SwapQueue :=
  (List.range i).foldl bubbleBodyP st

/-- The loops of `generateBubbleSort`, without the checks. -/
def bubbleLoopsP (st : VisualisedArray × SwapQueue) : VisualisedArray × SwapQueue :=
  (List.range st.1.length).reverse.foldl bubbleInnerP st

/-- The inner loop of `generateInsertionSort`, without the checks. -/
def insertionInnerP (st : VisualisedArray × SwapQueue) (i : Nat) :
    VisualisedArray × SwapQueue :=
  ((List.range i).reverse.map (· + 1)).foldl insertionBodyP st

/-- The loops of `generateInsertionSort`, without the checks. -/
def insertionLoopsP (st : VisualisedArray × SwapQueue) : VisualisedArray × SwapQueue :=
  (List.range st.1.length).foldl insertionInnerP st

/-- Positions `m..n-1` hold their final ranks: each rank at a position `q ≥ m` is at least
every rank before it. -/
def SortedFrom (m n : Nat) (c : VisualisedArray) : Prop :=
  ∀ p q, p < q → m ≤ q → q < n → rankAt c p ≤ rankAt c q

/-- Within the walk of the insertion sort at outer index `i`: the first `i + 1` positions
without position `j` are in order, and the rank at `j` is at most every rank after it. -/
def WalkInv (i j : Nat) (c : VisualisedArray) : Prop :=
  (∀ p q, p < q → q ≤ i → p ≠ j → q ≠ j → rankAt c p ≤ rankAt c q) ∧
    (∀ k, j < k → k ≤ i → rankAt c j ≤ rankAt c k)

/-- The first `i` positions are in ascending rank order. -/
def SortedUpTo (i : Nat) (c : VisualisedArray) : Prop :=
  ∀ p q, p < q → q < i → rankAt c p ≤ rankAt c q

/-- The number of inversions of a list of ranks: pairs of positions `a < b` whose ranks
are in descending order. -/
def inversions : List Int → Nat
  | [] => 0
  | x :: xs => xs.countP (fun y => decide (y < x)) + inversions xs

/-- The ranks `n, n - 1, ..., 1`: the reverse-sorted input. -/
def descendingRanks (n : Nat) : List Int :=
  (ascendingRanks n).reverse

/-- After a generate event: `k` ticks empty the queue and leave the live array in ascending
rank order, a rearrangement of `original`, and the queue is non-empty after fewer ticks. -/
def PlaybackSorts (original : VisualisedArray) (s1 : State) (k : Nat) : Prop :=
  (∃ s2, ticks k s1 = some s2 ∧ s2.swap_queue = [] ∧ Ascending s2.array ∧
    s2.array.Perm original) ∧
  ∀ m, m < k → ∃ sm, ticks m s1 = some sm ∧ sm.swap_queue ≠ []

/-- Both indices of a queued swap are positions of an array of size `n`. -/
def InRange (n : Nat) (sw : SwapPair) : Prop :=
  0 ≤ sw.1 ∧ sw.1 < (n : Int) ∧ 0 ≤ sw.2 ∧ sw.2 < (n : Int)

/-! ## The standard insertion sort and the inversion count, in the spec's words -/

/-- Following the spec's words for the insertion-sort generator, "walk j from i down to 1;
whenever element[j−1].rank > element[j].rank, record the swap (j, j−1) and apply it to the
working copy, continuing the inward walk; stop the inner walk as soon as the order
condition holds": the walk that starts at `j` and stops at the first pair in order. -/
def standardWalk : Nat → VisualisedArray × SwapQueue → VisualisedArray × SwapQueue
  | 0, st => st
  | j + 1, st =>
    if rankAt st.1 j ≤ rankAt st.1 (j + 1) then st
    else standardWalk j
      (swapAt st.1 (j + 1) j, st.2 ++ [(((j + 1 : Nat) : Int), ((j + 1 : Nat) : Int) - 1)])

/-- Following the spec's words, "for each index i from 0 to n−1", the standard insertion
sort by adjacent swaps: the swap list of the walks with early stop, from the empty list. -/
def standardInsertionSort (array : VisualisedArray) : SwapQueue :=
  ((List.range array.length).foldl (fun st i => standardWalk i st) (array, [])).2

/-- The number of pairs of positions `a < b` with `rank[a] > rank[b]`. -/
def inversionCount (array : VisualisedArray) : Nat :=
  ((List.range array.length).map (fun a =>
    (List.range array.length).countP
      (fun b => decide (a < b ∧ rankAt array b < rankAt array a)))).sum

/-! ## Concrete inputs -/

/-- A colour for the concrete inputs below. -/
def sampleColor : Color := ⟨0, 0, 255, 255⟩

/-- The input of the concrete scenarios: ranks `3, 1, 4, 2`. -/
def sampleArray : VisualisedArray :=
  [(3, sampleColor), (1, sampleColor), (4, sampleColor), (2, sampleColor)]

/-- A state with the shuffled flag set, holding `sampleArray`. -/
def sampleShuffled : State :=
  { array := sampleArray, swap_queue := [], isVertical := true, shuffled := true }

/-- The colour given to index `i` in the concrete runs below. -/
def sampleColorAt (i : Nat) : Color := ⟨i, 0, 255 - i, 255⟩

/-- A shuffle outcome of the initial array of size 3: ranks `3, 1, 2`. -/
def sampleShuffle : VisualisedArray :=
  [(3, sampleColorAt 2), (1, sampleColorAt 0), (2, sampleColorAt 1)]

/-- The state after the keys `KEY_ZERO` (with outcome `sampleShuffle`) and `KEY_ONE`
from the initial state of size 3: the queue holds the two swaps of the bubble sort. -/
def samplePlaying : State :=
  { array := sampleShuffle, swap_queue := [(0, 1), (1, 2)], isVertical := true,
    shuffled := false }

/-- The reverse-sorted input of size 4: ranks `4, 3, 2, 1`. -/
def sampleReversed : VisualisedArray :=
  [(4, sampleColor), (3, sampleColor), (2, sampleColor), (1, sampleColor)]

/-- An already-ascending input: ranks `1, 2, 3`. -/
def sampleSorted : VisualisedArray :=
  [(1, sampleColor), (2, sampleColor), (3, sampleColor)]

/-- The state `samplePlaying` one shuffle later: the outcome is the ranks `2, 3, 1`. -/
def sampleReshuffle : VisualisedArray :=
  [(2, sampleColorAt 1), (3, sampleColorAt 2), (1, sampleColorAt 0)]

/-- The state two ticks after `samplePlaying`: the queue is used up, the array is sorted. -/
def sampleDone : State :=
  { array := [(1, sampleColorAt 0), (2, sampleColorAt 1), (3, sampleColorAt 2)],
    swap_queue := [], isVertical := true, shuffled := false }

/-! ## `permutate` and the exchange of two positions -/

theorem length_swapAt (a : VisualisedArray) (i j : Nat) : (swapAt a i j).length = a.length := by
  unfold swapAt
  split <;> simp

theorem permutate_natCast (a : VisualisedArray) (i j : Nat) (hi : i < a.length)
    (hj : j < a.length) : permutate a (i : Int) (j : Int) = some (swapAt a i j) := by
  unfold permutate swapAt
  have h1 : ¬ ((i : Int) < 0 ∨ (j : Int) < 0) := by omega
  rw [if_neg h1]
  simp only [Int.toNat_ofNat]
  rw [List.getElem?_eq_getElem hi, List.getElem?_eq_getElem hj]

theorem permutate_eq_some_iff (a c : VisualisedArray) (i1 i2 : Int) :
    permutate a i1 i2 = some c ↔
      ∃ i j : Nat, i1 = (i : Int) ∧ i2 = (j : Int) ∧ i < a.length ∧ j < a.length ∧
        c = swapAt a i j := by
  constructor
  · intro h
    unfold permutate at h
    split at h
    · exact absurd h (by simp)
    · rename_i hneg
      have h1 : 0 ≤ i1 := by omega
      have h2 : 0 ≤ i2 := by omega
      refine ⟨i1.toNat, i2.toNat, (Int.toNat_of_nonneg h1).symm, (Int.toNat_of_nonneg h2).symm, ?_⟩
      split at h
      · rename_i temp x ht hx
        have hi := (List.getElem?_eq_some.mp ht).1
        have hj := (List.getElem?_eq_some.mp hx).1
        refine ⟨hi, hj, ?_⟩
        unfold swapAt
        rw [ht, hx]
        exact (Option.some.inj h).symm
      · exact absurd h (by simp)
  · rintro ⟨i, j, rfl, rfl, hi, hj, rfl⟩
    exact permutate_natCast a i j hi hj

theorem swapAt_lookup (a : VisualisedArray) (i j k : Nat) (hi : i < a.length)
    (hj : j < a.length) :
    (swapAt a i j)[k]? = if k = j then a[i]? else if k = i then a[j]? else a[k]? := by
  unfold swapAt
  rw [List.getElem?_eq_getElem hi, List.getElem?_eq_getElem hj]
  simp only [List.getElem?_set, List.length_set]
  by_cases h1 : k = j
  · subst h1; simp [hj]
  · by_cases h2 : k = i
    · subst h2
      have : ¬ j = k := fun h => h1 h.symm
      simp [this, hi, h1]
    · have h3 : ¬ j = k := fun h => h1 h.symm
      have h4 : ¬ i = k := fun h => h2 h.symm
      simp [h1, h2, h3, h4]

theorem rankAt_swapAt (a : VisualisedArray) (i j k : Nat) (hi : i < a.length)
    (hj : j < a.length) :
    rankAt (swapAt a i j) k = if k = j then rankAt a i else if k = i then rankAt a j
      else rankAt a k := by
  unfold rankAt
  rw [swapAt_lookup a i j k hi hj]
  split_ifs <;> rfl

theorem swapAt_comm (a : VisualisedArray) (i j : Nat) : swapAt a i j = swapAt a j i := by
  by_cases hi : i < a.length
  · by_cases hj : j < a.length
    · apply List.ext_getElem?
      intro k
      rw [swapAt_lookup a i j k hi hj, swapAt_lookup a j i k hj hi]
      by_cases h1 : k = j
      · by_cases h2 : k = i
        · subst h1; subst h2; simp
        · subst h1
          have h3 : ¬ i = k := fun h => h2 h.symm
          simp [h2, h3]
      · simp [h1]
    · unfold swapAt
      have : a[j]? = none := List.getElem?_eq_none (by omega)
      rw [this]
      cases a[i]? <;> rfl
  · unfold swapAt
    have : a[i]? = none := List.getElem?_eq_none (by omega)
    rw [this]
    cases a[j]? <;> rfl

theorem set_set_perm_aux {α : Type} [DecidableEq α] (l : List α) (i j : Nat) (hi : i < l.length)
    (hj : j < l.length) : ((l.set i l[j]).set j l[i]).Perm l := by
  rw [List.perm_iff_count]
  intro e
  rw [List.count_set _ _ _ _ (by simpa using hj), List.count_set _ _ _ _ hi]
  rw [List.getElem_set]
  have h1 := List.count_pos_iff.mpr (List.getElem_mem hi)
  have h2 := List.count_pos_iff.mpr (List.getElem_mem hj)
  by_cases hij : i = j
  · subst hij
    simp only [if_true, beq_iff_eq]
    split_ifs with h <;> first | omega | (subst h; omega)
  · simp only [hij, if_false, beq_iff_eq]
    split_ifs with h h' <;> first | omega | (subst h; omega)

theorem swapAt_perm (a : VisualisedArray) (i j : Nat) : (swapAt a i j).Perm a := by
  unfold swapAt
  split
  · rename_i temp x ht hx
    obtain ⟨hi, rfl⟩ := List.getElem?_eq_some.mp ht
    obtain ⟨hj, rfl⟩ := List.getElem?_eq_some.mp hx
    exact set_set_perm_aux a i j hi hj
  · exact List.Perm.refl _

/-! ## The generators never leave the array -/

theorem length_bubbleBodyP (st : VisualisedArray × SwapQueue) (j : Nat) :
    (bubbleBodyP st j).1.length = st.1.length := by
  unfold bubbleBodyP
  split <;> simp [length_swapAt]

theorem length_insertionBodyP (st : VisualisedArray × SwapQueue) (j : Nat) :
    (insertionBodyP st j).1.length = st.1.length := by
  unfold insertionBodyP
  split <;> simp [length_swapAt]

theorem bubbleBody_eq (st : VisualisedArray × SwapQueue) (j : Nat) (h : j + 1 < st.1.length) :
    bubbleBody st j = some (bubbleBodyP st j) := by
  have hj : j < st.1.length := by omega
  unfold bubbleBody bubbleBodyP rankAt
  rw [List.getElem?_eq_getElem hj, List.getElem?_eq_getElem h]
  simp only
  have hp := permutate_natCast st.1 j (j + 1) hj h
  rw [Nat.cast_add, Nat.cast_one] at hp
  rw [hp]
  split_ifs <;> rfl

theorem insertionBody_eq (st : VisualisedArray × SwapQueue) (j : Nat) (h0 : 0 < j)
    (h : j < st.1.length) : insertionBody st j = some (insertionBodyP st j) := by
  have hj : j - 1 < st.1.length := by omega
  unfold insertionBody insertionBodyP rankAt
  rw [List.getElem?_eq_getElem hj, List.getElem?_eq_getElem h]
  simp only
  have hp := permutate_natCast st.1 j (j - 1) h hj
  rw [Nat.cast_sub (by omega), Nat.cast_one] at hp
  rw [hp]
  split_ifs <;> rfl

/-- A checked fold that agrees step by step with a pure one, under an invariant that the
pure step keeps, returns what the pure fold computes. -/
theorem foldlM_eq_some_foldl {σ ι : Type} (f : σ → ι → Option σ) (g : σ → ι → σ)
    (I : σ → Prop) (l : List ι)
    (h : ∀ s, I s → ∀ j ∈ l, f s j = some (g s j) ∧ I (g s j)) :
    ∀ s, I s → l.foldlM f s = some (l.foldl g s) ∧ I (l.foldl g s) := by
  induction l with
  | nil => intro s hs; exact ⟨rfl, hs⟩
  | cons x xs ih =>
    intro s hs
    have hx := h s hs x (List.mem_cons_self x xs)
    have ih2 := ih (fun s1 hs1 j hj => h s1 hs1 j (List.mem_cons_of_mem x hj)) (g s x) hx.2
    rw [List.foldlM_cons, hx.1]
    exact ih2

/-- Invariant rule for a loop `for (j = 0; j < i; j++)`. -/
theorem foldl_range_inv {σ : Type} (g : σ → Nat → σ) (P : Nat → σ → Prop) (i : Nat) (s : σ)
    (h0 : P 0 s) (hstep : ∀ j t, j < i → P j t → P (j + 1) (g t j)) :
    P i ((List.range i).foldl g s) := by
  induction i with
  | zero => simpa using h0
  | succ n ih =>
    rw [List.range_succ, List.foldl_append]
    simp only [List.foldl_cons, List.foldl_nil]
    exact hstep n _ (Nat.lt_succ_self n)
      (ih (fun j t hj hP => hstep j t (Nat.lt_succ_of_lt hj) hP))

/-- Invariant rule for a loop `for (i = n - 1; i >= 0; i--)`. -/
theorem foldl_range_reverse_inv {σ : Type} (g : σ → Nat → σ) (P : Nat → σ → Prop) (n : Nat) :
    ∀ s : σ, P n s → (∀ j t, j < n → P (j + 1) t → P j (g t j)) →
      P 0 ((List.range n).reverse.foldl g s) := by
  induction n with
  | zero => intro s h0 _; simpa using h0
  | succ n ih =>
    intro s h0 hstep
    rw [List.range_succ, List.reverse_append]
    simp only [List.reverse_cons, List.reverse_nil, List.nil_append, List.singleton_append,
      List.foldl_cons]
    exact ih (g s n) (hstep n s (Nat.lt_succ_self n) h0)
      (fun j t hj hP => hstep j t (Nat.lt_succ_of_lt hj) hP)

/-- Invariant rule for a loop `for (j = i; j > 0; j--)`. -/
theorem foldl_countdown_inv {σ : Type} (g : σ → Nat → σ) (P : Nat → σ → Prop) (i : Nat)
    (s : σ) (h0 : P i s) (hstep : ∀ j t, 0 < j → j ≤ i → P j t → P (j - 1) (g t j)) :
    P 0 (((List.range i).reverse.map (· + 1)).foldl g s) := by
  rw [List.foldl_map]
  exact foldl_range_reverse_inv (fun t k => g t (k + 1)) P i s h0
    (fun j t hj hP => hstep (j + 1) t (Nat.succ_pos j) hj hP)

theorem bubbleInner_eq (n : Nat) (st : VisualisedArray × SwapQueue) (i : Nat)
    (hlen : st.1.length = n) (hi : i < n) :
    bubbleInner st i = some (bubbleInnerP st i) ∧ (bubbleInnerP st i).1.length = n := by
  unfold bubbleInner bubbleInnerP
  apply foldlM_eq_some_foldl bubbleBody bubbleBodyP (fun t => t.1.length = n)
  · intro s hs j hj
    rw [List.mem_range] at hj
    exact ⟨bubbleBody_eq s j (by omega), by rw [length_bubbleBodyP]; exact hs⟩
  · exact hlen

theorem bubbleLoops_eq (st : VisualisedArray × SwapQueue) :
    bubbleLoops st = some (bubbleLoopsP st) ∧ (bubbleLoopsP st).1.length = st.1.length := by
  unfold bubbleLoops bubbleLoopsP
  apply foldlM_eq_some_foldl bubbleInner bubbleInnerP (fun t => t.1.length = st.1.length)
  · intro s hs i hi
    rw [List.mem_reverse, List.mem_range] at hi
    exact bubbleInner_eq st.1.length s i hs hi
  · rfl

theorem insertionInner_eq (n : Nat) (st : VisualisedArray × SwapQueue) (i : Nat)
    (hlen : st.1.length = n) (hi : i < n) :
    insertionInner st i = some (insertionInnerP st i) ∧
      (insertionInnerP st i).1.length = n := by
  unfold insertionInner insertionInnerP
  apply foldlM_eq_some_foldl insertionBody insertionBodyP (fun t => t.1.length = n)
  · intro s hs j hj
    rw [List.mem_map] at hj
    obtain ⟨k, hk, rfl⟩ := hj
    rw [List.mem_reverse, List.mem_range] at hk
    exact ⟨insertionBody_eq s (k + 1) (Nat.succ_pos k) (by omega),
      by rw [length_insertionBodyP]; exact hs⟩
  · exact hlen

theorem insertionLoops_eq (st : VisualisedArray × SwapQueue) :
    insertionLoops st = some (insertionLoopsP st) ∧
      (insertionLoopsP st).1.length = st.1.length := by
  unfold insertionLoops insertionLoopsP
  apply foldlM_eq_some_foldl insertionInner insertionInnerP
    (fun t => t.1.length = st.1.length)
  · intro s hs i hi
    rw [List.mem_range] at hi
    exact insertionInner_eq st.1.length s i hs hi
  · rfl

theorem generateBubbleSort_eq (array : VisualisedArray) (q0 : SwapQueue) :
    generateBubbleSort array q0 = some (bubbleLoopsP (array, [])).2 := by
  unfold generateBubbleSort
  simp only [(bubbleLoops_eq (array, [])).1, Option.map_some']

theorem generateInsertionSort_eq (array : VisualisedArray) (q0 : SwapQueue) :
    generateInsertionSort array q0 = some (insertionLoopsP (array, [])).2 := by
  unfold generateInsertionSort
  simp only [(insertionLoops_eq (array, [])).1, Option.map_some']

/-! ## Invariants of the generator loops -/

/-- A property of the pair (working copy, queue) that every in-range step of the inner
loop of `generateBubbleSort` keeps is kept by the whole generator. -/
theorem bubbleLoopsP_inv (J : VisualisedArray × SwapQueue → Prop) (n : Nat)
    (hJ : ∀ t j, t.1.length = n → j + 1 < n → J t → J (bubbleBodyP t j))
    (st : VisualisedArray × SwapQueue) (hlen : st.1.length = n) (h0 : J st) :
    J (bubbleLoopsP st) := by
  have inner : ∀ t i, i < n → (t.1.length = n ∧ J t) →
      ((bubbleInnerP t i).1.length = n ∧ J (bubbleInnerP t i)) := by
    intro t i hi ht
    unfold bubbleInnerP
    refine foldl_range_inv bubbleBodyP (fun _ u => u.1.length = n ∧ J u) i t ht ?_
    intro j u hj hu
    exact ⟨by rw [length_bubbleBodyP]; exact hu.1, hJ u j hu.1 (by omega) hu.2⟩
  have outer := foldl_range_reverse_inv bubbleInnerP (fun _ u => u.1.length = n ∧ J u) n st
    ⟨hlen, h0⟩ (fun i t hi ht => inner t i hi ht)
  unfold bubbleLoopsP
  rw [hlen]
  exact outer.2

/-- The same rule for `generateInsertionSort`. -/
theorem insertionLoopsP_inv (J : VisualisedArray × SwapQueue → Prop) (n : Nat)
    (hJ : ∀ t j, t.1.length = n → 0 < j → j < n → J t → J (insertionBodyP t j))
    (st : VisualisedArray × SwapQueue) (hlen : st.1.length = n) (h0 : J st) :
    J (insertionLoopsP st) := by
  have inner : ∀ t i, i < n → (t.1.length = n ∧ J t) →
      ((insertionInnerP t i).1.length = n ∧ J (insertionInnerP t i)) := by
    intro t i hi ht
    unfold insertionInnerP
    refine foldl_countdown_inv insertionBodyP (fun _ u => u.1.length = n ∧ J u) i t ht ?_
    intro j u hj0 hj hu
    exact ⟨by rw [length_insertionBodyP]; exact hu.1, hJ u j hu.1 hj0 (by omega) hu.2⟩
  have outer := foldl_range_inv insertionInnerP (fun _ u => u.1.length = n ∧ J u) n st
    ⟨hlen, h0⟩ (fun i t hi ht => inner t i hi ht)
  unfold insertionLoopsP
  rw [hlen]
  exact outer.2

theorem replay_append (a : VisualisedArray) (q : SwapQueue) (sw : SwapPair) :
    replay a (q ++ [sw]) = (replay a q).bind (fun c => permutate c sw.1 sw.2) := by
  unfold replay
  rw [List.foldlM_append]
  cases h : List.foldlM (fun a sw => permutate a sw.1 sw.2) a q with
  | none => rfl
  | some c =>
    show (some c).bind _ = (some c).bind _
    simp only [Option.some_bind, List.foldlM_cons, List.foldlM_nil]
    cases permutate c sw.1 sw.2 <;> rfl

/-- The working copy is always the original array with the queued swaps replayed on it. -/
theorem bubbleBodyP_replay (a0 : VisualisedArray) (t : VisualisedArray × SwapQueue) (j : Nat)
    (hj : j + 1 < t.1.length) (h : replay a0 t.2 = some t.1) :
    replay a0 (bubbleBodyP t j).2 = some (bubbleBodyP t j).1 := by
  unfold bubbleBodyP
  split
  · exact h
  · simp only [replay_append, h, Option.some_bind]
    have hp := permutate_natCast t.1 j (j + 1) (by omega) hj
    rw [Nat.cast_add, Nat.cast_one] at hp
    exact hp

theorem insertionBodyP_replay (a0 : VisualisedArray) (t : VisualisedArray × SwapQueue)
    (j : Nat) (h0 : 0 < j) (hj : j < t.1.length) (h : replay a0 t.2 = some t.1) :
    replay a0 (insertionBodyP t j).2 = some (insertionBodyP t j).1 := by
  unfold insertionBodyP
  split
  · exact h
  · simp only [replay_append, h, Option.some_bind]
    have hp := permutate_natCast t.1 j (j - 1) hj (by omega)
    rw [Nat.cast_sub (by omega), Nat.cast_one] at hp
    exact hp

theorem bubbleLoopsP_replay (a : VisualisedArray) :
    replay a (bubbleLoopsP (a, [])).2 = some (bubbleLoopsP (a, [])).1 :=
  bubbleLoopsP_inv (fun t => replay a t.2 = some t.1) a.length
    (fun t j hlen hj h => bubbleBodyP_replay a t j (by omega) h) (a, []) rfl rfl

theorem insertionLoopsP_replay (a : VisualisedArray) :
    replay a (insertionLoopsP (a, [])).2 = some (insertionLoopsP (a, [])).1 :=
  insertionLoopsP_inv (fun t => replay a t.2 = some t.1) a.length
    (fun t j hlen h0 hj h => insertionBodyP_replay a t j h0 (by omega) h) (a, []) rfl rfl

/-- The working copy is a rearrangement of the original array. -/
theorem bubbleLoopsP_perm (a : VisualisedArray) : (bubbleLoopsP (a, [])).1.Perm a :=
  bubbleLoopsP_inv (fun t => t.1.Perm a) a.length
    (fun t j _ _ h => by
      unfold bubbleBodyP
      split
      · exact h
      · exact (swapAt_perm t.1 j (j + 1)).trans h) (a, []) rfl (List.Perm.refl a)

theorem insertionLoopsP_perm (a : VisualisedArray) : (insertionLoopsP (a, [])).1.Perm a :=
  insertionLoopsP_inv (fun t => t.1.Perm a) a.length
    (fun t j _ _ _ h => by
      unfold insertionBodyP
      split
      · exact h
      · exact (swapAt_perm t.1 j (j - 1)).trans h) (a, []) rfl (List.Perm.refl a)

/-- Every swap queued by the bubble-sort generator is `(j, j + 1)` with `j + 1` in range. -/
theorem bubbleLoopsP_shape (a : VisualisedArray) :
    ∀ sw ∈ (bubbleLoopsP (a, [])).2,
      ∃ j : Nat, sw = ((j : Int), (j : Int) + 1) ∧ j + 1 < a.length :=
  bubbleLoopsP_inv
    (fun t => ∀ sw ∈ t.2, ∃ j : Nat, sw = ((j : Int), (j : Int) + 1) ∧ j + 1 < a.length)
    a.length
    (fun t j _ hj h => by
      unfold bubbleBodyP
      split
      · exact h
      · intro sw hsw
        rcases List.mem_append.mp hsw with h1 | h1
        · exact h sw h1
        · exact ⟨j, List.mem_singleton.mp h1, hj⟩) (a, []) rfl
    (fun sw hsw => absurd hsw (List.not_mem_nil sw))

/-- Every swap queued by the insertion-sort generator is `(j, j - 1)` with `1 ≤ j` in range. -/
theorem insertionLoopsP_shape (a : VisualisedArray) :
    ∀ sw ∈ (insertionLoopsP (a, [])).2,
      ∃ j : Nat, sw = ((j : Int), (j : Int) - 1) ∧ 1 ≤ j ∧ j < a.length :=
  insertionLoopsP_inv
    (fun t => ∀ sw ∈ t.2, ∃ j : Nat, sw = ((j : Int), (j : Int) - 1) ∧ 1 ≤ j ∧ j < a.length)
    a.length
    (fun t j _ h0 hj h => by
      unfold insertionBodyP
      split
      · exact h
      · intro sw hsw
        rcases List.mem_append.mp hsw with h1 | h1
        · exact h sw h1
        · exact ⟨j, List.mem_singleton.mp h1, h0, hj⟩) (a, []) rfl
    (fun sw hsw => absurd hsw (List.not_mem_nil sw))

/-! ## Both generators sort -/

theorem bubbleBodyP_sorted (n i j : Nat) (u : VisualisedArray × SwapQueue) (hj : j < i)
    (hi : i < n) (hlen : u.1.length = n) (hmax : ∀ k, k < j → rankAt u.1 k ≤ rankAt u.1 j)
    (hQ : SortedFrom (i + 1) n u.1) :
    (∀ k, k < j + 1 → rankAt (bubbleBodyP u j).1 k ≤ rankAt (bubbleBodyP u j).1 (j + 1)) ∧
      SortedFrom (i + 1) n (bubbleBodyP u j).1 := by
  unfold bubbleBodyP
  split
  · rename_i hle
    refine ⟨?_, hQ⟩
    intro k hk
    by_cases hkj : k = j
    · subst hkj; exact hle
    · exact le_trans (hmax k (by omega)) hle
  · rename_i hgt
    have hgt : rankAt u.1 (j + 1) < rankAt u.1 j := by omega
    have hr := fun k => rankAt_swapAt u.1 j (j + 1) k (by omega) (by omega)
    refine ⟨?_, ?_⟩
    · intro k hk
      show rankAt (swapAt u.1 j (j + 1)) k ≤ rankAt (swapAt u.1 j (j + 1)) (j + 1)
      rw [hr k, hr (j + 1), if_pos rfl]
      have h1 : ¬ k = j + 1 := by omega
      rw [if_neg h1]
      by_cases hkj : k = j
      · rw [if_pos hkj]; omega
      · rw [if_neg hkj]; exact hmax k (by omega)
    · intro p q hpq hq hqn
      show rankAt (swapAt u.1 j (j + 1)) p ≤ rankAt (swapAt u.1 j (j + 1)) q
      rw [hr p, hr q]
      have h1 : ¬ q = j + 1 := by omega
      have h2 : ¬ q = j := by omega
      rw [if_neg h1, if_neg h2]
      by_cases hp1 : p = j + 1
      · rw [if_pos hp1]; exact hQ j q (by omega) hq hqn
      · rw [if_neg hp1]
        by_cases hp2 : p = j
        · rw [if_pos hp2]; exact hQ (j + 1) q (by omega) hq hqn
        · rw [if_neg hp2]; exact hQ p q hpq hq hqn

theorem bubbleInnerP_sorted (n i : Nat) (t : VisualisedArray × SwapQueue) (hi : i < n)
    (hlen : t.1.length = n) (hQ : SortedFrom (i + 1) n t.1) :
    (bubbleInnerP t i).1.length = n ∧ SortedFrom i n (bubbleInnerP t i).1 := by
  have h := foldl_range_inv bubbleBodyP
    (fun j u => u.1.length = n ∧ (∀ k, k < j → rankAt u.1 k ≤ rankAt u.1 j) ∧
      SortedFrom (i + 1) n u.1) i t
    ⟨hlen, fun k hk => absurd hk (Nat.not_lt_zero k), hQ⟩
    (fun j u hj hu =>
      ⟨by rw [length_bubbleBodyP]; exact hu.1,
        bubbleBodyP_sorted n i j u hj hi hu.1 hu.2.1 hu.2.2⟩)
  refine ⟨h.1, ?_⟩
  intro p q hpq hq hqn
  by_cases hqi : q = i
  · subst hqi; exact h.2.1 p hpq
  · exact h.2.2 p q hpq (by omega) hqn

theorem bubbleLoopsP_sorted (st : VisualisedArray × SwapQueue) :
    SortedFrom 0 st.1.length (bubbleLoopsP st).1 := by
  have h := foldl_range_reverse_inv bubbleInnerP
    (fun m u => u.1.length = st.1.length ∧ SortedFrom m st.1.length u.1) st.1.length st
    ⟨rfl, fun p q _ hq hqn => absurd hqn (by omega)⟩
    (fun i t hi ht => bubbleInnerP_sorted st.1.length i t hi ht.1 ht.2)
  exact h.2

theorem insertionBodyP_walk (n i j : Nat) (u : VisualisedArray × SwapQueue) (h0 : 0 < j)
    (hj : j ≤ i) (hi : i < n) (hlen : u.1.length = n) (hW : WalkInv i j u.1) :
    WalkInv i (j - 1) (insertionBodyP u j).1 := by
  obtain ⟨hA, hB⟩ := hW
  unfold insertionBodyP
  split
  · rename_i hle
    refine ⟨?_, ?_⟩
    · intro p q hpq hq hp1 hq1
      show rankAt u.1 p ≤ rankAt u.1 q
      by_cases hpj : p = j
      · subst hpj; exact hB q hpq hq
      · by_cases hqj : q = j
        · subst hqj
          exact le_trans (hA p (q - 1) (by omega) (by omega) hpj (by omega)) hle
        · exact hA p q hpq hq hpj hqj
    · intro k hk hki
      show rankAt u.1 (j - 1) ≤ rankAt u.1 k
      by_cases hkj : k = j
      · subst hkj; exact hle
      · exact le_trans hle (hB k (by omega) hki)
  · rename_i hgt
    have hgt : rankAt u.1 j < rankAt u.1 (j - 1) := by omega
    have hr := fun k => rankAt_swapAt u.1 j (j - 1) k (by omega) (by omega)
    refine ⟨?_, ?_⟩
    · intro p q hpq hq hp1 hq1
      show rankAt (swapAt u.1 j (j - 1)) p ≤ rankAt (swapAt u.1 j (j - 1)) q
      rw [hr p, hr q, if_neg hp1, if_neg hq1]
      by_cases hpj : p = j
      · rw [if_pos hpj]
        have hqj : ¬ q = j := by omega
        rw [if_neg hqj]
        exact hA (j - 1) q (by omega) hq (by omega) hqj
      · rw [if_neg hpj]
        by_cases hqj : q = j
        · rw [if_pos hqj]
          by_cases hpp : p = j - 1
          · exact absurd hpp hp1
          · exact hA p (j - 1) (by omega) (by omega) hpj (by omega)
        · rw [if_neg hqj]; exact hA p q hpq hq hpj hqj
    · intro k hk hki
      show rankAt (swapAt u.1 j (j - 1)) (j - 1) ≤ rankAt (swapAt u.1 j (j - 1)) k
      rw [hr (j - 1), hr k, if_pos rfl]
      have h1 : ¬ k = j - 1 := by omega
      rw [if_neg h1]
      by_cases hkj : k = j
      · rw [if_pos hkj]; omega
      · rw [if_neg hkj]; exact hB k (by omega) hki

theorem insertionInnerP_sorted (n i : Nat) (t : VisualisedArray × SwapQueue) (hi : i < n)
    (hlen : t.1.length = n) (hS : SortedUpTo i t.1) :
    (insertionInnerP t i).1.length = n ∧ SortedUpTo (i + 1) (insertionInnerP t i).1 := by
  have h := foldl_countdown_inv insertionBodyP
    (fun j u => u.1.length = n ∧ WalkInv i j u.1) i t
    ⟨hlen, fun p q hpq hq _ hqi => hS p q hpq (by omega), fun k hk hki => absurd hk (by omega)⟩
    (fun j u h0 hj hu =>
      ⟨by rw [length_insertionBodyP]; exact hu.1, insertionBodyP_walk n i j u h0 hj hi hu.1 hu.2⟩)
  refine ⟨h.1, ?_⟩
  intro p q hpq hq
  by_cases hp : p = 0
  · subst hp; exact h.2.2 q hpq (by omega)
  · exact h.2.1 p q hpq (by omega) hp (by omega)

theorem insertionLoopsP_sorted (st : VisualisedArray × SwapQueue) :
    SortedUpTo st.1.length (insertionLoopsP st).1 := by
  have h := foldl_range_inv insertionInnerP
    (fun i u => u.1.length = st.1.length ∧ SortedUpTo i u.1) st.1.length st
    ⟨rfl, fun p q _ hq => absurd hq (Nat.not_lt_zero q)⟩
    (fun i t hi ht => insertionInnerP_sorted st.1.length i t hi ht.1 ht.2)
  exact h.2

/-! ## Ascending order and inversions -/

theorem rankAt_eq_getElem (c : VisualisedArray) (p : Nat) (hp : p < (ranks c).length) :
    rankAt c p = (ranks c)[p] := by
  have hp2 : p < c.length := by simpa [ranks] using hp
  unfold rankAt ranks
  rw [List.getElem?_eq_getElem hp2]
  simp

theorem ascending_of_sortedFrom (c : VisualisedArray) (h : SortedFrom 0 c.length c) :
    Ascending c := by
  unfold Ascending
  rw [List.pairwise_iff_getElem]
  intro p q hp hq hpq
  rw [← rankAt_eq_getElem c p hp, ← rankAt_eq_getElem c q hq]
  exact h p q hpq (Nat.zero_le q) (by simpa [ranks] using hq)

theorem sortedFrom_of_ascending (c : VisualisedArray) (h : Ascending c) :
    SortedFrom 0 c.length c := by
  unfold Ascending at h
  rw [List.pairwise_iff_getElem] at h
  intro p q hpq _ hq
  have hq2 : q < (ranks c).length := by simpa [ranks] using hq
  have hp2 : p < (ranks c).length := by omega
  rw [rankAt_eq_getElem c p hp2, rankAt_eq_getElem c q hq2]
  exact h p q hp2 hq2 hpq

theorem ascendingRanks_pairwise (n : Nat) : (ascendingRanks n).Pairwise (· ≤ ·) := by
  unfold ascendingRanks
  rw [List.pairwise_map]
  exact (List.pairwise_lt_range n).imp (fun h => by omega)

/-- An ascending rearrangement of the ranks `1..N` is the list `1, 2, ..., N`. -/
theorem ranks_eq_of_ascending (a c : VisualisedArray) (hperm : c.Perm a)
    (harr : IsArrangement a) (hasc : Ascending c) : ranks c = ascendingRanks a.length := by
  have h1 : (ranks c).Perm (ascendingRanks a.length) :=
    (List.Perm.map Prod.fst hperm).trans harr
  exact List.eq_of_perm_of_sorted h1 hasc (ascendingRanks_pairwise a.length)

theorem bubbleLoopsP_ascending (a : VisualisedArray) : Ascending (bubbleLoopsP (a, [])).1 := by
  apply ascending_of_sortedFrom
  rw [(bubbleLoops_eq (a, [])).2]
  exact bubbleLoopsP_sorted (a, [])

theorem insertionLoopsP_ascending (a : VisualisedArray) :
    Ascending (insertionLoopsP (a, [])).1 := by
  apply ascending_of_sortedFrom
  rw [(insertionLoops_eq (a, [])).2]
  intro p q hpq _ hq
  exact insertionLoopsP_sorted (a, []) p q hpq hq

theorem swapAt_cons_succ (x : Element) (l : VisualisedArray) (i j : Nat) :
    swapAt (x :: l) (i + 1) (j + 1) = x :: swapAt l i j := by
  unfold swapAt
  simp only [List.getElem?_cons_succ]
  cases l[i]? <;> cases l[j]? <;> simp

theorem rankAt_cons_succ (x : Element) (l : VisualisedArray) (k : Nat) :
    rankAt (x :: l) (k + 1) = rankAt l k := by
  unfold rankAt
  simp only [List.getElem?_cons_succ]

theorem inversions_swapAt (a : VisualisedArray) (j : Nat) (h : j + 1 < a.length)
    (hgt : rankAt a (j + 1) < rankAt a j) :
    inversions (ranks (swapAt a j (j + 1))) + 1 = inversions (ranks a) := by
  induction j generalizing a with
  | zero =>
    match a, h with
    | x :: y :: l, _ =>
      have hxy : y.1 < x.1 := by simpa [rankAt] using hgt
      have hyx : ¬ x.1 < y.1 := by omega
      simp [swapAt, ranks, inversions, List.countP_cons, hxy, hyx]
      omega
  | succ j ih =>
    match a, h with
    | x :: l, h =>
      rw [swapAt_cons_succ]
      rw [rankAt_cons_succ, rankAt_cons_succ] at hgt
      have hl : j + 1 < l.length := by simpa using h
      have ih2 := ih l hl hgt
      have hp : (ranks (swapAt l j (j + 1))).Perm (ranks l) :=
        List.Perm.map Prod.fst (swapAt_perm l j (j + 1))
      have hc := hp.countP_eq (fun y => decide (y < x.1))
      simp only [ranks, List.map_cons, inversions] at ih2 hc ⊢
      omega

theorem inversions_eq_zero (l : List Int) (h : l.Pairwise (· ≤ ·)) : inversions l = 0 := by
  induction l with
  | nil => rfl
  | cons x xs ih =>
    rw [List.pairwise_cons] at h
    have h1 : xs.countP (fun y => decide (y < x)) = 0 := by
      rw [List.countP_eq_zero]
      intro y hy
      have := h.1 y hy
      simp only [decide_eq_true_eq]
      omega
    simp only [inversions, h1, ih h.2]

theorem inversions_le (l : List Int) : 2 * inversions l ≤ l.length * (l.length - 1) := by
  induction l with
  | nil => simp [inversions]
  | cons x xs ih =>
    have h1 : xs.countP (fun y => decide (y < x)) ≤ xs.length := List.countP_le_length _
    simp only [inversions, List.length_cons, Nat.add_sub_cancel]
    have h2 : xs.length * (xs.length - 1) + 2 * xs.length = (xs.length + 1) * xs.length := by
      cases xs.length with
      | zero => rfl
      | succ m => simp only [Nat.add_sub_cancel]; ring
    omega

theorem inversions_descendingRanks (n : Nat) :
    2 * inversions (descendingRanks n) = n * (n - 1) := by
  induction n with
  | zero => rfl
  | succ n ih =>
    have hd : descendingRanks (n + 1) = ((n : Int) + 1) :: descendingRanks n := by
      unfold descendingRanks ascendingRanks
      rw [List.range_succ, List.map_append, List.reverse_append]
      rfl
    have hc : (descendingRanks n).countP (fun y => decide (y < (n : Int) + 1)) = n := by
      have hlen : (descendingRanks n).length = n := by
        simp [descendingRanks, ascendingRanks]
      rw [List.countP_eq_length.mpr, hlen]
      intro y hy
      simp only [descendingRanks, ascendingRanks, List.mem_reverse, List.mem_map,
        List.mem_range] at hy
      obtain ⟨k, hk, rfl⟩ := hy
      simp only [decide_eq_true_eq]
      omega
    rw [hd]
    simp only [inversions, hc, Nat.add_sub_cancel]
    have h2 : n * (n - 1) + 2 * n = (n + 1) * n := by
      cases n with
      | zero => rfl
      | succ m => simp only [Nat.add_sub_cancel]; ring
    omega

/-- Each queued swap removes exactly one inversion from the working copy. -/
theorem bubbleLoopsP_inversions (a : VisualisedArray) :
    inversions (ranks (bubbleLoopsP (a, [])).1) + (bubbleLoopsP (a, [])).2.length =
      inversions (ranks a) :=
  bubbleLoopsP_inv (fun t => inversions (ranks t.1) + t.2.length = inversions (ranks a))
    a.length
    (fun t j hlen hj h => by
      unfold bubbleBodyP
      split
      · exact h
      · rename_i hgt
        have h1 := inversions_swapAt t.1 j (by omega) (by omega)
        simp only [List.length_append, List.length_singleton]
        omega) (a, []) rfl rfl

theorem insertionLoopsP_inversions (a : VisualisedArray) :
    inversions (ranks (insertionLoopsP (a, [])).1) + (insertionLoopsP (a, [])).2.length =
      inversions (ranks a) :=
  insertionLoopsP_inv (fun t => inversions (ranks t.1) + t.2.length = inversions (ranks a))
    a.length
    (fun t j hlen h0 hj h => by
      unfold insertionBodyP
      split
      · exact h
      · rename_i hgt
        have h1 := inversions_swapAt t.1 (j - 1) (by omega)
          (by rw [Nat.sub_add_cancel h0]; omega)
        rw [Nat.sub_add_cancel h0, swapAt_comm] at h1
        simp only [List.length_append, List.length_singleton]
        omega) (a, []) rfl rfl

/-- The swap count of the bubble-sort generator is the number of inversions of the input. -/
theorem bubbleLoopsP_length (a : VisualisedArray) :
    (bubbleLoopsP (a, [])).2.length = inversions (ranks a) := by
  have h := bubbleLoopsP_inversions a
  rw [inversions_eq_zero _ (bubbleLoopsP_ascending a)] at h
  omega

/-- The swap count of the insertion-sort generator is the number of inversions of the input. -/
theorem insertionLoopsP_length (a : VisualisedArray) :
    (insertionLoopsP (a, [])).2.length = inversions (ranks a) := by
  have h := insertionLoopsP_inversions a
  rw [inversions_eq_zero _ (insertionLoopsP_ascending a)] at h
  omega

/-! ## Playback and reachable states -/

theorem replay_cons (a c : VisualisedArray) (sw : SwapPair) (rest : SwapQueue)
    (h : replay a (sw :: rest) = some c) :
    ∃ a1, permutate a sw.1 sw.2 = some a1 ∧ replay a1 rest = some c := by
  unfold replay at h
  rw [List.foldlM_cons] at h
  cases hp : permutate a sw.1 sw.2 with
  | none => rw [hp] at h; exact absurd h (by simp)
  | some a1 => rw [hp] at h; exact ⟨a1, rfl, h⟩

/-- Ticking through a queue whose replay succeeds: after `m` ticks the first `m` swaps are
gone from the queue and the rest still replays to the same array. -/
theorem ticks_replay (c : VisualisedArray) (m : Nat) :
    ∀ s : State, replay s.array s.swap_queue = some c → m ≤ s.swap_queue.length →
      ∃ sm, ticks m s = some sm ∧ sm.swap_queue = s.swap_queue.drop m ∧
        replay sm.array sm.swap_queue = some c := by
  induction m with
  | zero => intro s h _; exact ⟨s, rfl, rfl, h⟩
  | succ m ih =>
    intro s h hm
    match hq : s.swap_queue, hm with
    | [], hm => simp at hm
    | sw :: rest, hm =>
      rw [hq] at h
      obtain ⟨a1, hp, hr⟩ := replay_cons s.array c sw rest h
      have ht : tick s = some ({ s with array := a1, swap_queue := rest }, sw) := by
        unfold tick
        rw [hq]
        simp only [hp]
      obtain ⟨sm, h1, h2, h3⟩ := ih { s with array := a1, swap_queue := rest } hr
        (by simpa using hm)
      refine ⟨sm, ?_, ?_, h3⟩
      · show (match tick s with
          | some (s1, _) => ticks m s1
          | none => none) = some sm
        rw [ht]
        exact h1
      · rw [h2]; rfl

theorem playbackSorts_of_replay (a c : VisualisedArray) (s1 : State)
    (h : replay s1.array s1.swap_queue = some c) (hasc : Ascending c) (hperm : c.Perm a) :
    PlaybackSorts a s1 s1.swap_queue.length := by
  constructor
  · obtain ⟨s2, h1, h2, h3⟩ := ticks_replay c s1.swap_queue.length s1 h (le_refl _)
    rw [List.drop_length] at h2
    rw [h2] at h3
    have h4 : s2.array = c := Option.some.inj h3
    exact ⟨s2, h1, h2, h4 ▸ hasc, h4 ▸ hperm⟩
  · intro m hm
    obtain ⟨sm, h1, h2, _⟩ := ticks_replay c m s1 h (le_of_lt hm)
    refine ⟨sm, h1, ?_⟩
    rw [h2]
    intro h0
    have := congrArg List.length h0
    simp at this
    omega

theorem permutate_perm (a c : VisualisedArray) (i1 i2 : Int) (h : permutate a i1 i2 = some c) :
    c.Perm a := by
  obtain ⟨i, j, _, _, _, _, rfl⟩ := (permutate_eq_some_iff a c i1 i2).mp h
  exact swapAt_perm a i j

theorem permutate_isSome (a : VisualisedArray) (sw : SwapPair) (h : InRange a.length sw) :
    ∃ c, permutate a sw.1 sw.2 = some c := by
  obtain ⟨h1, h2, h3, h4⟩ := h
  refine ⟨swapAt a sw.1.toNat sw.2.toNat, ?_⟩
  rw [permutate_eq_some_iff]
  exact ⟨sw.1.toNat, sw.2.toNat, (Int.toNat_of_nonneg h1).symm, (Int.toNat_of_nonneg h3).symm,
    by omega, by omega, rfl⟩

theorem bubble_inRange (a : VisualisedArray) :
    ∀ sw ∈ (bubbleLoopsP (a, [])).2, InRange a.length sw := by
  intro sw hsw
  obtain ⟨j, rfl, hj⟩ := bubbleLoopsP_shape a sw hsw
  unfold InRange
  simp only
  omega

theorem insertion_inRange (a : VisualisedArray) :
    ∀ sw ∈ (insertionLoopsP (a, [])).2, InRange a.length sw := by
  intro sw hsw
  obtain ⟨j, rfl, h1, hj⟩ := insertionLoopsP_shape a sw hsw
  unfold InRange
  simp only
  omega

theorem handleKey_one_shuffled (s : State) (h : s.shuffled = true) :
    handleKey s Key.KEY_ONE =
      some { s with swap_queue := (bubbleLoopsP (s.array, [])).2, shuffled := false } := by
  simp only [handleKey, h, if_true, generateBubbleSort_eq]

theorem handleKey_two_shuffled (s : State) (h : s.shuffled = true) :
    handleKey s Key.KEY_TWO =
      some { s with swap_queue := (insertionLoopsP (s.array, [])).2, shuffled := false } := by
  simp only [handleKey, h, if_true, generateInsertionSort_eq]

theorem handleKey_one_ignored (s : State) (h : s.shuffled = false) :
    handleKey s Key.KEY_ONE = some s := by
  simp [handleKey, h]

theorem handleKey_two_ignored (s : State) (h : s.shuffled = false) :
    handleKey s Key.KEY_TWO = some s := by
  simp [handleKey, h]

/-- What every reachable state satisfies: the array is a rearrangement of the initial one
and every queued swap is in range. -/
theorem reachable_inv (colorAt : Nat → Color) (n : Nat) (s : State)
    (h : Reachable colorAt n s) :
    s.array.Perm (initState colorAt n).array ∧ ∀ sw ∈ s.swap_queue, InRange s.array.length sw := by
  induction h with
  | init => exact ⟨List.Perm.refl _, fun sw hsw => absurd hsw (List.not_mem_nil sw)⟩
  | key s s1 k _ hv hk ih =>
    cases k with
    | KEY_SPACE =>
      simp only [handleKey, Option.some.injEq] at hk
      subst hk
      exact ih
    | KEY_ZERO shuffledArray =>
      simp only [handleKey, Option.some.injEq] at hk
      subst hk
      exact ⟨List.Perm.trans hv ih.1, fun sw hsw => absurd hsw (List.not_mem_nil sw)⟩
    | KEY_ONE =>
      cases hsh : s.shuffled with
      | true =>
        rw [handleKey_one_shuffled s hsh, Option.some.injEq] at hk
        subst hk
        exact ⟨ih.1, bubble_inRange s.array⟩
      | false =>
        rw [handleKey_one_ignored s hsh, Option.some.injEq] at hk
        subst hk
        exact ih
    | KEY_TWO =>
      cases hsh : s.shuffled with
      | true =>
        rw [handleKey_two_shuffled s hsh, Option.some.injEq] at hk
        subst hk
        exact ⟨ih.1, insertion_inRange s.array⟩
      | false =>
        rw [handleKey_two_ignored s hsh, Option.some.injEq] at hk
        subst hk
        exact ih
    | other =>
      simp only [handleKey, Option.some.injEq] at hk
      subst hk
      exact ih
  | tick s s1 cur _ ht ih =>
    unfold tick at ht
    split at ht
    · rename_i sw rest hq
      split at ht
      · rename_i a hp
        simp only [Option.some.injEq, Prod.mk.injEq] at ht
        obtain ⟨rfl, _⟩ := ht
        have hperm := permutate_perm s.array a sw.1 sw.2 hp
        refine ⟨hperm.trans ih.1, ?_⟩
        intro x hx
        show InRange a.length x
        rw [hperm.length_eq]
        exact ih.2 x (by rw [hq]; exact List.mem_cons_of_mem sw hx)
      · exact absurd ht (by simp)
    · simp only [Option.some.injEq, Prod.mk.injEq] at ht
      obtain ⟨rfl, _⟩ := ht
      exact ih

/-! ## The claims -/

theorem ascendingRanks_strict (n : Nat) : (ascendingRanks n).Pairwise (· < ·) := by
  unfold ascendingRanks
  rw [List.pairwise_map]
  exact (List.pairwise_lt_range n).imp (fun h => by omega)

/-- C1: for every arrangement of the ranks `1..N`, `generateBubbleSort` returns a swap list,
and replaying that list in order with `permutate` on the arrangement gives an array whose
ranks are `1, 2, ..., N` at positions `0..N-1`, which is strictly ascending. -/
theorem generateBubbleSort_replay_sorts (array : VisualisedArray) (swap_queue : SwapQueue)
    (harr : IsArrangement array) :
    ∃ q c, generateBubbleSort array swap_queue = some q ∧ replay array q = some c ∧
      ranks c = ascendingRanks array.length ∧ (ranks c).Pairwise (· < ·) := by
  refine ⟨(bubbleLoopsP (array, [])).2, (bubbleLoopsP (array, [])).1,
    generateBubbleSort_eq array swap_queue, bubbleLoopsP_replay array, ?_⟩
  have h := ranks_eq_of_ascending array _ (bubbleLoopsP_perm array) harr
    (bubbleLoopsP_ascending array)
  exact ⟨h, h ▸ ascendingRanks_strict array.length⟩

theorem generateBubbleSort_replay_sorts_witness :
    IsArrangement sampleArray ∧
      ∃ q c, generateBubbleSort sampleArray [] = some q ∧ replay sampleArray q = some c ∧
        ranks c = ascendingRanks sampleArray.length ∧ (ranks c).Pairwise (· < ·) :=
  ⟨by decide, generateBubbleSort_replay_sorts sampleArray [] (by decide)⟩

/-- C2: for every arrangement of the ranks `1..N`, `generateInsertionSort` returns a swap
list, and replaying that list in order with `permutate` on the arrangement gives an array
whose ranks are `1, 2, ..., N` at positions `0..N-1`, which is strictly ascending. -/
theorem generateInsertionSort_replay_sorts (array : VisualisedArray) (swap_queue : SwapQueue)
    (harr : IsArrangement array) :
    ∃ q c, generateInsertionSort array swap_queue = some q ∧ replay array q = some c ∧
      ranks c = ascendingRanks array.length ∧ (ranks c).Pairwise (· < ·) := by
  refine ⟨(insertionLoopsP (array, [])).2, (insertionLoopsP (array, [])).1,
    generateInsertionSort_eq array swap_queue, insertionLoopsP_replay array, ?_⟩
  have h := ranks_eq_of_ascending array _ (insertionLoopsP_perm array) harr
    (insertionLoopsP_ascending array)
  exact ⟨h, h ▸ ascendingRanks_strict array.length⟩

theorem generateInsertionSort_replay_sorts_witness :
    IsArrangement sampleArray ∧
      ∃ q c, generateInsertionSort sampleArray [] = some q ∧ replay sampleArray q = some c ∧
        ranks c = ascendingRanks sampleArray.length ∧ (ranks c).Pairwise (· < ·) :=
  ⟨by decide, generateInsertionSort_replay_sorts sampleArray [] (by decide)⟩

/-- C3: from any state with the shuffled flag set, a generate key (`KEY_ONE` for bubble
sort, `KEY_TWO` for insertion sort) puts the generator's swap list `q` in the queue and
clears the flag; from there `q.length` ticks with no key in between empty the queue and
leave the live array in ascending rank order (a rearrangement of the array before the key),
and after every smaller number of ticks the queue is non-empty. -/
theorem playback_sorts_live_array (s : State) (hs : s.shuffled = true) :
    (∃ q, generateBubbleSort s.array s.swap_queue = some q ∧
      handleKey s Key.KEY_ONE = some { s with swap_queue := q, shuffled := false } ∧
      PlaybackSorts s.array { s with swap_queue := q, shuffled := false } q.length) ∧
    (∃ q, generateInsertionSort s.array s.swap_queue = some q ∧
      handleKey s Key.KEY_TWO = some { s with swap_queue := q, shuffled := false } ∧
      PlaybackSorts s.array { s with swap_queue := q, shuffled := false } q.length) := by
  constructor
  · exact ⟨(bubbleLoopsP (s.array, [])).2, generateBubbleSort_eq s.array s.swap_queue,
      handleKey_one_shuffled s hs,
      playbackSorts_of_replay s.array (bubbleLoopsP (s.array, [])).1
        { s with swap_queue := (bubbleLoopsP (s.array, [])).2, shuffled := false }
        (bubbleLoopsP_replay s.array) (bubbleLoopsP_ascending s.array)
        (bubbleLoopsP_perm s.array)⟩
  · exact ⟨(insertionLoopsP (s.array, [])).2, generateInsertionSort_eq s.array s.swap_queue,
      handleKey_two_shuffled s hs,
      playbackSorts_of_replay s.array (insertionLoopsP (s.array, [])).1
        { s with swap_queue := (insertionLoopsP (s.array, [])).2, shuffled := false }
        (insertionLoopsP_replay s.array) (insertionLoopsP_ascending s.array)
        (insertionLoopsP_perm s.array)⟩

theorem playback_sorts_live_array_witness :
    sampleShuffled.shuffled = true ∧
    ((∃ q, generateBubbleSort sampleShuffled.array sampleShuffled.swap_queue = some q ∧
      handleKey sampleShuffled Key.KEY_ONE =
        some { sampleShuffled with swap_queue := q, shuffled := false } ∧
      PlaybackSorts sampleShuffled.array
        { sampleShuffled with swap_queue := q, shuffled := false } q.length) ∧
    (∃ q, generateInsertionSort sampleShuffled.array sampleShuffled.swap_queue = some q ∧
      handleKey sampleShuffled Key.KEY_TWO =
        some { sampleShuffled with swap_queue := q, shuffled := false } ∧
      PlaybackSorts sampleShuffled.array
        { sampleShuffled with swap_queue := q, shuffled := false } q.length)) :=
  ⟨rfl, playback_sorts_live_array sampleShuffled rfl⟩

theorem samplePlaying_reachable : Reachable sampleColorAt 3 samplePlaying :=
  Reachable.key
    { array := sampleShuffle, swap_queue := [], isVertical := true, shuffled := true }
    samplePlaying Key.KEY_ONE
    (Reachable.key (initState sampleColorAt 3) _ (Key.KEY_ZERO sampleShuffle)
      Reachable.init (by decide) rfl)
    trivial (by decide)

/-- C4: in every reachable state the live array is a rearrangement of the initial
`(rank, colour)` pairs, so each element carries the colour given at initialisation, and it
holds each rank of `1..N` exactly once. -/
theorem sequence_invariant (colorAt : Nat → Color) (n : Nat) (s : State)
    (h : Reachable colorAt n s) :
    s.array.Perm (initState colorAt n).array ∧ s.array.length = n ∧ IsArrangement s.array := by
  have hperm := (reachable_inv colorAt n s h).1
  have hlen : s.array.length = n := by
    rw [hperm.length_eq]
    simp [initState]
  refine ⟨hperm, hlen, ?_⟩
  unfold IsArrangement
  rw [hlen]
  have h1 : ranks (initState colorAt n).array = ascendingRanks n := by
    simp [ranks, initState, ascendingRanks, Function.comp_def]
  rw [← h1]
  exact List.Perm.map Prod.fst hperm

theorem sequence_invariant_witness :
    Reachable sampleColorAt 3 samplePlaying ∧
      (samplePlaying.array.Perm (initState sampleColorAt 3).array ∧
        samplePlaying.array.length = 3 ∧ IsArrangement samplePlaying.array) :=
  ⟨samplePlaying_reachable, sequence_invariant sampleColorAt 3 samplePlaying
    samplePlaying_reachable⟩

/-- C5: with the shuffled flag false, the key handling of `KEY_ONE` and of `KEY_TWO`
returns the state it was given: queue, array and flag are unchanged. -/
theorem generate_ignored_unless_shuffled (s : State) (h : s.shuffled = false) :
    handleKey s Key.KEY_ONE = some s ∧ handleKey s Key.KEY_TWO = some s :=
  ⟨handleKey_one_ignored s h, handleKey_two_ignored s h⟩

theorem generate_ignored_unless_shuffled_witness :
    samplePlaying.shuffled = false ∧
      (handleKey samplePlaying Key.KEY_ONE = some samplePlaying ∧
        handleKey samplePlaying Key.KEY_TWO = some samplePlaying) :=
  ⟨rfl, generate_ignored_unless_shuffled samplePlaying rfl⟩

theorem half_of_double (m k : Nat) (h : 2 * m = k) : m = k / 2 := by omega

/-- C6: on the reverse-sorted input `N, N-1, ..., 1` both generators return a swap list of
exactly `N(N-1)/2` entries, and on no array of size `N` (so on no arrangement of the ranks
`1..N`) does `generateBubbleSort` return more than `N(N-1)/2` swaps. -/
theorem reverse_input_swap_count (array : VisualisedArray) (swap_queue : SwapQueue)
    (hrev : ranks array = descendingRanks array.length) :
    (∃ q, generateBubbleSort array swap_queue = some q ∧
      q.length = array.length * (array.length - 1) / 2) ∧
    (∃ q, generateInsertionSort array swap_queue = some q ∧
      q.length = array.length * (array.length - 1) / 2) ∧
    (∀ (other : VisualisedArray) (queue : SwapQueue), other.length = array.length →
      ∃ q, generateBubbleSort other queue = some q ∧
        q.length ≤ array.length * (array.length - 1) / 2) := by
  have hinv : 2 * inversions (ranks array) = array.length * (array.length - 1) := by
    rw [hrev]
    exact inversions_descendingRanks array.length
  refine ⟨⟨_, generateBubbleSort_eq array swap_queue, ?_⟩,
    ⟨_, generateInsertionSort_eq array swap_queue, ?_⟩, ?_⟩
  · rw [bubbleLoopsP_length]
    exact half_of_double _ _ hinv
  · rw [insertionLoopsP_length]
    exact half_of_double _ _ hinv
  · intro other queue hlen
    refine ⟨_, generateBubbleSort_eq other queue, ?_⟩
    rw [bubbleLoopsP_length]
    have h1 := inversions_le (ranks other)
    have h2 : (ranks other).length = array.length := by simpa [ranks] using hlen
    rw [h2] at h1
    omega

theorem reverse_input_swap_count_witness :
    ranks sampleReversed = descendingRanks sampleReversed.length ∧
    ((∃ q, generateBubbleSort sampleReversed [] = some q ∧
      q.length = sampleReversed.length * (sampleReversed.length - 1) / 2) ∧
    (∃ q, generateInsertionSort sampleReversed [] = some q ∧
      q.length = sampleReversed.length * (sampleReversed.length - 1) / 2) ∧
    (∀ (other : VisualisedArray) (queue : SwapQueue), other.length = sampleReversed.length →
      ∃ q, generateBubbleSort other queue = some q ∧
        q.length ≤ sampleReversed.length * (sampleReversed.length - 1) / 2)) :=
  ⟨by decide, reverse_input_swap_count sampleReversed [] (by decide)⟩

/-- C7: on an array in ascending rank order both generators return the empty swap list;
so a generate key pressed in a state with the shuffled flag set and such an array gives the
state with an empty queue and the flag cleared, in which "SORTED!" is drawn. -/
theorem ascending_input_no_swaps (array : VisualisedArray) (swap_queue : SwapQueue)
    (isVertical : Bool) (hasc : Ascending array) :
    generateBubbleSort array swap_queue = some [] ∧
    generateInsertionSort array swap_queue = some [] ∧
    handleKey ⟨array, swap_queue, isVertical, true⟩ Key.KEY_ONE =
      some ⟨array, [], isVertical, false⟩ ∧
    handleKey ⟨array, swap_queue, isVertical, true⟩ Key.KEY_TWO =
      some ⟨array, [], isVertical, false⟩ ∧
    drawsSorted ⟨array, [], isVertical, false⟩ = true := by
  have h0 : inversions (ranks array) = 0 := inversions_eq_zero _ hasc
  have hb : (bubbleLoopsP (array, [])).2 = [] := by
    apply List.eq_nil_of_length_eq_zero
    rw [bubbleLoopsP_length, h0]
  have hi : (insertionLoopsP (array, [])).2 = [] := by
    apply List.eq_nil_of_length_eq_zero
    rw [insertionLoopsP_length, h0]
  refine ⟨?_, ?_, ?_, ?_, rfl⟩
  · rw [generateBubbleSort_eq, hb]
  · rw [generateInsertionSort_eq, hi]
  · rw [handleKey_one_shuffled _ rfl]
    simp only [hb]
  · rw [handleKey_two_shuffled _ rfl]
    simp only [hi]

theorem ascending_input_no_swaps_witness :
    Ascending sampleSorted ∧
    (generateBubbleSort sampleSorted [(0, 1)] = some [] ∧
    generateInsertionSort sampleSorted [(0, 1)] = some [] ∧
    handleKey ⟨sampleSorted, [(0, 1)], true, true⟩ Key.KEY_ONE =
      some ⟨sampleSorted, [], true, false⟩ ∧
    handleKey ⟨sampleSorted, [(0, 1)], true, true⟩ Key.KEY_TWO =
      some ⟨sampleSorted, [], true, false⟩ ∧
    drawsSorted ⟨sampleSorted, [], true, false⟩ = true) :=
  ⟨by decide, ascending_input_no_swaps sampleSorted [(0, 1)] true (by decide)⟩

/-- C8: on the ranks `3, 1, 4, 2` (with any colours and any previous queue)
`generateBubbleSort` returns exactly the swaps `(0,1), (2,3), (1,2)` in that order, and
replaying them on the input gives the ranks `1, 2, 3, 4`, each with its own colour. -/
theorem bubble_scenario (c0 c1 c2 c3 : Color) (swap_queue : SwapQueue) :
    generateBubbleSort [(3, c0), (1, c1), (4, c2), (2, c3)] swap_queue =
      some [(0, 1), (2, 3), (1, 2)] ∧
    replay [(3, c0), (1, c1), (4, c2), (2, c3)] [(0, 1), (2, 3), (1, 2)] =
      some [(1, c1), (2, c3), (3, c0), (4, c2)] :=
  ⟨rfl, rfl⟩

/-- C9: on the ranks `3, 1, 4, 2` (with any colours and any previous queue)
`generateInsertionSort` returns exactly the swaps `(1,0), (3,2), (2,1)` in that order, and
replaying them on the input gives the ranks `1, 2, 3, 4`, each with its own colour. -/
theorem insertion_scenario (c0 c1 c2 c3 : Color) (swap_queue : SwapQueue) :
    generateInsertionSort [(3, c0), (1, c1), (4, c2), (2, c3)] swap_queue =
      some [(1, 0), (3, 2), (2, 1)] ∧
    replay [(3, c0), (1, c1), (4, c2), (2, c3)] [(1, 0), (3, 2), (2, 1)] =
      some [(1, c1), (2, c3), (3, c0), (4, c2)] :=
  ⟨rfl, rfl⟩

/-- C10: no `permutate` call is out of range.  On every array both generators return a
queue (no access inside them was out of range); every swap of `generateBubbleSort` is
`(j, j + 1)` with `0 ≤ j` and `j + 1 < N`, every swap of `generateInsertionSort` is
`(j, j - 1)` with `1 ≤ j < N`; and in every reachable state every queued swap has both
indices in `[0, N)` and the tick, with its `permutate` call on the front swap, succeeds. -/
theorem permutate_calls_in_range :
    (∀ (array : VisualisedArray) (swap_queue : SwapQueue),
      ∃ q, generateBubbleSort array swap_queue = some q ∧
        ∀ sw ∈ q, ∃ j : Nat, sw = ((j : Int), (j : Int) + 1) ∧ j + 1 < array.length) ∧
    (∀ (array : VisualisedArray) (swap_queue : SwapQueue),
      ∃ q, generateInsertionSort array swap_queue = some q ∧
        ∀ sw ∈ q, ∃ j : Nat, sw = ((j : Int), (j : Int) - 1) ∧ 1 ≤ j ∧ j < array.length) ∧
    (∀ (colorAt : Nat → Color) (n : Nat) (s : State), Reachable colorAt n s →
      s.array.length = n ∧ (∀ sw ∈ s.swap_queue, InRange n sw) ∧
        ∃ s1 cur, tick s = some (s1, cur)) := by
  refine ⟨fun array swap_queue => ⟨_, generateBubbleSort_eq array swap_queue,
      bubbleLoopsP_shape array⟩,
    fun array swap_queue => ⟨_, generateInsertionSort_eq array swap_queue,
      insertionLoopsP_shape array⟩, ?_⟩
  intro colorAt n s h
  obtain ⟨hperm, hrange⟩ := reachable_inv colorAt n s h
  have hlen : s.array.length = n := by
    rw [hperm.length_eq]
    simp [initState]
  refine ⟨hlen, fun sw hsw => hlen ▸ hrange sw hsw, ?_⟩
  unfold tick
  split
  · rename_i sw rest hq
    obtain ⟨c, hc⟩ := permutate_isSome s.array sw (hrange sw (by rw [hq]; simp))
    rw [hc]
    exact ⟨_, _, rfl⟩
  · exact ⟨_, _, rfl⟩

theorem permutate_calls_in_range_witness :
    Reachable sampleColorAt 3 samplePlaying ∧
      (samplePlaying.array.length = 3 ∧ (∀ sw ∈ samplePlaying.swap_queue, InRange 3 sw) ∧
        ∃ s1 cur, tick samplePlaying = some (s1, cur)) :=
  ⟨samplePlaying_reachable,
    permutate_calls_in_range.2.2 sampleColorAt 3 samplePlaying samplePlaying_reachable⟩

/-! ## The walk with `continue` and the walk that stops -/

/-- On a sorted prefix the walk of the source records nothing. -/
theorem insertionWalk_sorted (j : Nat) (t : VisualisedArray × SwapQueue)
    (h : SortedUpTo (j + 1) t.1) :
    ((List.range j).reverse.map (· + 1)).foldl insertionBodyP t = t := by
  induction j with
  | zero => rfl
  | succ j ih =>
    rw [List.range_succ, List.reverse_append]
    simp only [List.reverse_cons, List.reverse_nil, List.nil_append, List.singleton_append,
      List.map_cons, List.foldl_cons]
    have h1 : insertionBodyP t (j + 1) = t := by
      unfold insertionBodyP
      rw [if_pos]
      simpa using h j (j + 1) (Nat.lt_succ_self j) (Nat.lt_succ_self (j + 1))
    rw [h1]
    exact ih (fun p q hpq hq => h p q hpq (by omega))

/-- Under the walk invariant the walk of the source (with `continue`) and the walk that
stops at the first pair in order compute the same working copy and queue. -/
theorem insertionWalk_eq_standardWalk (n i : Nat) (hi : i < n) (j : Nat) :
    ∀ t : VisualisedArray × SwapQueue, j ≤ i → t.1.length = n → WalkInv i j t.1 →
      ((List.range j).reverse.map (· + 1)).foldl insertionBodyP t = standardWalk j t := by
  induction j with
  | zero => intro t _ _ _; rfl
  | succ j ih =>
    intro t hj hlen hW
    rw [List.range_succ, List.reverse_append]
    simp only [List.reverse_cons, List.reverse_nil, List.nil_append, List.singleton_append,
      List.map_cons, List.foldl_cons]
    have hW2 := insertionBodyP_walk n i (j + 1) t (Nat.succ_pos j) hj hi hlen hW
    rw [Nat.add_sub_cancel] at hW2
    by_cases hle : rankAt t.1 j ≤ rankAt t.1 (j + 1)
    · have h1 : insertionBodyP t (j + 1) = t := by
        unfold insertionBodyP
        rw [Nat.add_sub_cancel, if_pos hle]
      have h2 : standardWalk (j + 1) t = t := by
        rw [standardWalk, if_pos hle]
      rw [h1, h2]
      apply insertionWalk_sorted
      intro p q hpq hq
      exact hW.1 p q hpq (by omega) (by omega) (by omega)
    · have h1 : insertionBodyP t (j + 1) =
          (swapAt t.1 (j + 1) j, t.2 ++ [(((j + 1 : Nat) : Int), ((j + 1 : Nat) : Int) - 1)]) := by
        unfold insertionBodyP
        rw [Nat.add_sub_cancel, if_neg hle]
      have h2 : standardWalk (j + 1) t = standardWalk j
          (swapAt t.1 (j + 1) j,
            t.2 ++ [(((j + 1 : Nat) : Int), ((j + 1 : Nat) : Int) - 1)]) := by
        rw [standardWalk, if_neg hle]
      rw [h1] at hW2
      rw [h1, h2]
      exact ih _ (by omega) (by rw [length_swapAt]; exact hlen) hW2

theorem insertionInnerP_eq_standardWalk (n i : Nat) (t : VisualisedArray × SwapQueue)
    (hi : i < n) (hlen : t.1.length = n) (hS : SortedUpTo i t.1) :
    insertionInnerP t i = standardWalk i t := by
  unfold insertionInnerP
  exact insertionWalk_eq_standardWalk n i hi i t (le_refl i) hlen
    ⟨fun p q hpq hq _ hqi => hS p q hpq (by omega), fun k hk hki => absurd hk (by omega)⟩

theorem insertionLoopsP_eq_standard (array : VisualisedArray) :
    insertionLoopsP (array, []) =
      (List.range array.length).foldl (fun st i => standardWalk i st) (array, []) := by
  have h := foldl_range_inv insertionInnerP
    (fun i u => u.1.length = array.length ∧ SortedUpTo i u.1 ∧
      u = (List.range i).foldl (fun st i => standardWalk i st) (array, []))
    array.length (array, [])
    ⟨rfl, fun p q _ hq => absurd hq (Nat.not_lt_zero q), rfl⟩
    (fun i t hi ht => by
      have h1 := insertionInnerP_sorted array.length i t hi ht.1 ht.2.1
      refine ⟨h1.1, h1.2, ?_⟩
      rw [List.range_succ, List.foldl_append]
      simp only [List.foldl_cons, List.foldl_nil]
      rw [← ht.2.2]
      exact insertionInnerP_eq_standardWalk array.length i t hi ht.1 ht.2.1)
  exact h.2.2

/-! ## Inversions counted by positions -/

theorem rankAt_cons_zero (x : Element) (xs : VisualisedArray) : rankAt (x :: xs) 0 = x.1 := by
  simp [rankAt]

theorem countP_rankAt (xs : VisualisedArray) (p : Int → Bool) :
    (List.range xs.length).countP (fun b => p (rankAt xs b)) = (ranks xs).countP p := by
  induction xs with
  | nil => rfl
  | cons x xs ih =>
    rw [List.length_cons, List.range_succ_eq_map, List.countP_cons, List.countP_map]
    have h1 : ((fun b => p (rankAt (x :: xs) b)) ∘ Nat.succ) = fun b => p (rankAt xs b) := by
      funext b
      simp only [Function.comp, Nat.succ_eq_add_one, rankAt_cons_succ]
    rw [h1, ih, rankAt_cons_zero]
    simp only [ranks, List.map_cons, List.countP_cons]

theorem inversionCount_eq_inversions (array : VisualisedArray) :
    inversionCount array = inversions (ranks array) := by
  induction array with
  | nil => rfl
  | cons x xs ih =>
    unfold inversionCount at ih ⊢
    rw [List.length_cons, List.range_succ_eq_map]
    simp only [List.map_cons, List.sum_cons, List.map_map, List.countP_cons, List.countP_map]
    have h0 : ((fun b => decide (0 < b ∧ rankAt (x :: xs) b < rankAt (x :: xs) 0)) ∘ Nat.succ) =
        fun b => (fun y => decide (y < x.1)) (rankAt xs b) := by
      funext b
      simp [rankAt_cons_succ, rankAt_cons_zero]
    have h1 : ((fun a => (List.range xs.length).countP
            ((fun b => decide (a < b ∧ rankAt (x :: xs) b < rankAt (x :: xs) a)) ∘ Nat.succ) +
          (if decide (a < 0 ∧ rankAt (x :: xs) 0 < rankAt (x :: xs) a) = true then 1 else 0))
          ∘ Nat.succ) =
        fun a => (List.range xs.length).countP
          (fun b => decide (a < b ∧ rankAt xs b < rankAt xs a)) := by
      funext a
      have h2 : ((fun b => decide (a + 1 < b ∧ rankAt (x :: xs) b < rankAt (x :: xs) (a + 1)))
          ∘ Nat.succ) = fun b => decide (a < b ∧ rankAt xs b < rankAt xs a) := by
        funext b
        simp [rankAt_cons_succ]
      simp only [Function.comp_apply, Nat.succ_eq_add_one, h2]
      simp
    rw [h0, countP_rankAt xs (fun y => decide (y < x.1)), h1, ih]
    simp [ranks, inversions]

/-! ## `permutate` twice, and the queue of a reachable state -/

theorem swapAt_self (a : VisualisedArray) (i : Nat) : swapAt a i i = a := by
  by_cases hi : i < a.length
  · apply List.ext_getElem?
    intro k
    rw [swapAt_lookup a i i k hi hi]
    by_cases h : k = i
    · rw [if_pos h, h]
    · rw [if_neg h, if_neg h]
  · unfold swapAt
    have : a[i]? = none := List.getElem?_eq_none (by omega)
    rw [this]

theorem swapAt_swapAt (a : VisualisedArray) (i j : Nat) (hi : i < a.length)
    (hj : j < a.length) : swapAt (swapAt a i j) i j = a := by
  apply List.ext_getElem?
  intro k
  have hi2 : i < (swapAt a i j).length := by rw [length_swapAt]; exact hi
  have hj2 : j < (swapAt a i j).length := by rw [length_swapAt]; exact hj
  rw [swapAt_lookup _ i j k hi2 hj2, swapAt_lookup a i j i hi hj, swapAt_lookup a i j j hi hj,
    swapAt_lookup a i j k hi hj]
  by_cases h1 : k = j
  · subst h1
    by_cases h2 : i = k
    · subst h2; simp
    · simp [h2]
  · by_cases h2 : k = i
    · subst h2
      simp [h1]
    · simp [h1, h2]

/-- With the shuffled flag false, the queue of a reachable state replays on the live array
to an array in ascending rank order. -/
theorem reachable_sorted (colorAt : Nat → Color) (n : Nat) (s : State)
    (h : Reachable colorAt n s) :
    s.shuffled = false → ∃ c, replay s.array s.swap_queue = some c ∧ Ascending c := by
  induction h with
  | init =>
    intro _
    refine ⟨(initState colorAt n).array, rfl, ?_⟩
    have h1 : ranks (initState colorAt n).array = ascendingRanks n := by
      simp [ranks, initState, ascendingRanks, Function.comp_def]
    unfold Ascending
    rw [h1]
    exact ascendingRanks_pairwise n
  | key s s1 k _ hv hk ih =>
    intro hflag
    cases k with
    | KEY_SPACE =>
      simp only [handleKey, Option.some.injEq] at hk
      subst hk
      exact ih hflag
    | KEY_ZERO shuffledArray =>
      simp only [handleKey, Option.some.injEq] at hk
      subst hk
      exact absurd hflag (by simp)
    | KEY_ONE =>
      cases hsh : s.shuffled with
      | true =>
        rw [handleKey_one_shuffled s hsh, Option.some.injEq] at hk
        subst hk
        exact ⟨_, bubbleLoopsP_replay s.array, bubbleLoopsP_ascending s.array⟩
      | false =>
        rw [handleKey_one_ignored s hsh, Option.some.injEq] at hk
        subst hk
        exact ih hflag
    | KEY_TWO =>
      cases hsh : s.shuffled with
      | true =>
        rw [handleKey_two_shuffled s hsh, Option.some.injEq] at hk
        subst hk
        exact ⟨_, insertionLoopsP_replay s.array, insertionLoopsP_ascending s.array⟩
      | false =>
        rw [handleKey_two_ignored s hsh, Option.some.injEq] at hk
        subst hk
        exact ih hflag
    | other =>
      simp only [handleKey, Option.some.injEq] at hk
      subst hk
      exact ih hflag
  | tick s s1 cur _ ht ih =>
    intro hflag
    unfold tick at ht
    split at ht
    · rename_i sw rest hq
      split at ht
      · rename_i a hp
        simp only [Option.some.injEq, Prod.mk.injEq] at ht
        obtain ⟨rfl, _⟩ := ht
        obtain ⟨c, hc, hasc⟩ := ih hflag
        rw [hq] at hc
        obtain ⟨a1, hp1, hr⟩ := replay_cons s.array c sw rest hc
        rw [hp] at hp1
        have : a = a1 := Option.some.inj hp1
        subst this
        exact ⟨c, hr, hasc⟩
      · exact absurd ht (by simp)
    · simp only [Option.some.injEq, Prod.mk.injEq] at ht
      obtain ⟨rfl, _⟩ := ht
      exact ih hflag

/-! ## The claims, continued -/

theorem sampleDone_reachable : Reachable sampleColorAt 3 sampleDone :=
  Reachable.tick
    { array := [(1, sampleColorAt 0), (3, sampleColorAt 2), (2, sampleColorAt 1)],
      swap_queue := [(1, 2)], isVertical := true, shuffled := false }
    sampleDone (1, 2)
    (Reachable.tick samplePlaying _ (0, 1) samplePlaying_reachable (by decide))
    (by decide)

/-- C11 (as stated, refuted): there is no input on which `generateInsertionSort` returns
strictly more swaps than `generateBubbleSort`. -/
theorem insertion_never_more_swaps :
    ¬ ∃ (array : VisualisedArray) (q0 q1 qb qi : SwapQueue),
      generateBubbleSort array q0 = some qb ∧ generateInsertionSort array q1 = some qi ∧
        qb.length < qi.length := by
  rintro ⟨array, q0, q1, qb, qi, hb, hi, hlt⟩
  rw [generateBubbleSort_eq, Option.some.injEq] at hb
  rw [generateInsertionSort_eq, Option.some.injEq] at hi
  subst hb
  subst hi
  rw [bubbleLoopsP_length, insertionLoopsP_length] at hlt
  exact Nat.lt_irrefl _ hlt

/-- C11 (amended): on every input both generators return a swap list, and the swap count
of `generateInsertionSort` is at most the swap count of `generateBubbleSort`. -/
theorem insertion_swaps_le_bubble_swaps (array : VisualisedArray) (q0 q1 : SwapQueue) :
    ∃ qb qi, generateBubbleSort array q0 = some qb ∧
      generateInsertionSort array q1 = some qi ∧ qi.length ≤ qb.length := by
  refine ⟨_, _, generateBubbleSort_eq array q0, generateInsertionSort_eq array q1, ?_⟩
  rw [bubbleLoopsP_length, insertionLoopsP_length]

/-- C12: a shuffle key in any state, whatever the queue holds, gives a state with an empty
queue and the shuffled flag set, whose array is a rearrangement of the array before the
key (the rearrangement is the contract of `std::random_shuffle`). -/
theorem shuffle_resets_playback (s : State) (shuffledArray : VisualisedArray)
    (hv : ValidKey s (Key.KEY_ZERO shuffledArray)) :
    ∃ s1, handleKey s (Key.KEY_ZERO shuffledArray) = some s1 ∧ s1.swap_queue = [] ∧
      s1.shuffled = true ∧ s1.array.Perm s.array ∧ s1.isVertical = s.isVertical :=
  ⟨{ s with array := shuffledArray, swap_queue := [], shuffled := true }, rfl, rfl, rfl, hv,
    rfl⟩

theorem shuffle_resets_playback_witness :
    ValidKey samplePlaying (Key.KEY_ZERO sampleReshuffle) ∧
      ∃ s1, handleKey samplePlaying (Key.KEY_ZERO sampleReshuffle) = some s1 ∧
        s1.swap_queue = [] ∧ s1.shuffled = true ∧ s1.array.Perm samplePlaying.array ∧
        s1.isVertical = samplePlaying.isVertical :=
  ⟨by decide, shuffle_resets_playback samplePlaying sampleReshuffle (by decide)⟩

/-- C13: what a generator returns does not depend on what the queue held before the call
(it is what the call returns on an empty queue, so no earlier entry is carried over), and
the key handling that calls a generator leaves the live array as it was. -/
theorem generators_reset_queue_keep_array (array : VisualisedArray) (q0 q1 : SwapQueue)
    (s : State) :
    generateBubbleSort array q0 = generateBubbleSort array q1 ∧
    generateBubbleSort array q0 = generateBubbleSort array [] ∧
    generateInsertionSort array q0 = generateInsertionSort array q1 ∧
    generateInsertionSort array q0 = generateInsertionSort array [] ∧
    (handleKey s Key.KEY_ONE).map State.array = some s.array ∧
    (handleKey s Key.KEY_TWO).map State.array = some s.array := by
  refine ⟨rfl, rfl, rfl, rfl, ?_, ?_⟩
  · cases hsh : s.shuffled with
    | true => rw [handleKey_one_shuffled s hsh]; rfl
    | false => rw [handleKey_one_ignored s hsh]; rfl
  · cases hsh : s.shuffled with
    | true => rw [handleKey_two_shuffled s hsh]; rfl
    | false => rw [handleKey_two_ignored s hsh]; rfl

/-- C14: on every input the swap list of `generateInsertionSort` is the swap list of the
standard insertion sort, whose inner walk stops at the first pair in order. -/
theorem insertion_walk_stops_in_order (array : VisualisedArray) (swap_queue : SwapQueue) :
    generateInsertionSort array swap_queue = some (standardInsertionSort array) := by
  rw [generateInsertionSort_eq, insertionLoopsP_eq_standard]
  rfl

/-- C15: in every reachable state with the shuffled flag false, replaying the remaining
queue on the live array gives an array in ascending rank order; so whenever "SORTED!" is
drawn (queue empty, flag false) the live array is in ascending rank order. -/
theorem sorted_indicator_truthful (colorAt : Nat → Color) (n : Nat) (s : State)
    (h : Reachable colorAt n s) :
    (s.shuffled = false → ∃ c, replay s.array s.swap_queue = some c ∧ Ascending c) ∧
    (drawsSorted s = true → Ascending s.array) := by
  refine ⟨reachable_sorted colorAt n s h, ?_⟩
  intro hd
  unfold drawsSorted at hd
  rw [Bool.and_eq_true] at hd
  have hq : s.swap_queue = [] := List.isEmpty_iff.mp hd.1
  have hf : s.shuffled = false := by simpa using hd.2
  obtain ⟨c, hc, hasc⟩ := reachable_sorted colorAt n s h hf
  rw [hq] at hc
  have : s.array = c := Option.some.inj hc
  rw [this]
  exact hasc

theorem sorted_indicator_truthful_witness :
    Reachable sampleColorAt 3 sampleDone ∧
    ((sampleDone.shuffled = false →
      ∃ c, replay sampleDone.array sampleDone.swap_queue = some c ∧ Ascending c) ∧
    (drawsSorted sampleDone = true → Ascending sampleDone.array)) :=
  ⟨sampleDone_reachable, sorted_indicator_truthful sampleColorAt 3 sampleDone
    sampleDone_reachable⟩

/-- C16: with a non-empty queue whose front swap is in range, the tick reports the front
swap, applies `permutate` with it to the live array, and leaves the rest of the queue in
its order and the flags as they were; with an empty queue it reports `(-1, -1)` and
returns the state unchanged. -/
theorem tick_pops_front_swap (s : State) :
    (∀ (sw : SwapPair) (rest : SwapQueue), s.swap_queue = sw :: rest →
      InRange s.array.length sw →
      ∃ a, permutate s.array sw.1 sw.2 = some a ∧
        tick s = some ({ s with array := a, swap_queue := rest }, sw)) ∧
    (s.swap_queue = [] → tick s = some (s, (-1, -1))) := by
  constructor
  · intro sw rest hq hr
    obtain ⟨a, ha⟩ := permutate_isSome s.array sw hr
    refine ⟨a, ha, ?_⟩
    unfold tick
    rw [hq]
    simp only [ha]
  · intro hq
    unfold tick
    rw [hq]

theorem tick_pops_front_swap_witness :
    (samplePlaying.swap_queue = (0, 1) :: [(1, 2)] ∧ InRange samplePlaying.array.length (0, 1)) ∧
    (∃ a, permutate samplePlaying.array 0 1 = some a ∧
      tick samplePlaying = some ({ samplePlaying with array := a, swap_queue := [(1, 2)] },
        (0, 1))) ∧
    (sampleDone.swap_queue = [] ∧ tick sampleDone = some (sampleDone, (-1, -1))) :=
  ⟨⟨rfl, by unfold InRange; decide⟩,
    (tick_pops_front_swap samplePlaying).1 (0, 1) [(1, 2)] rfl (by unfold InRange; decide),
    rfl, (tick_pops_front_swap sampleDone).2 rfl⟩

/-- C17: for in-range `i` and `j`, `permutate` returns an array of the same size in which
position `i` holds the element that was at `j`, position `j` the element that was at `i`,
and every other position is unchanged; with `i = j` the array is unchanged, and the same
`permutate` applied again gives back the original array. -/
theorem permutate_exchanges (array : VisualisedArray) (i j : Nat) (hi : i < array.length)
    (hj : j < array.length) :
    ∃ out, permutate array (i : Int) (j : Int) = some out ∧ out.length = array.length ∧
      out[i]? = array[j]? ∧ out[j]? = array[i]? ∧
      (∀ k, k ≠ i → k ≠ j → out[k]? = array[k]?) ∧
      (i = j → out = array) ∧
      permutate out (i : Int) (j : Int) = some array := by
  refine ⟨swapAt array i j, permutate_natCast array i j hi hj, length_swapAt array i j,
    ?_, ?_, ?_, ?_, ?_⟩
  · rw [swapAt_lookup array i j i hi hj]
    by_cases h : i = j
    · rw [if_pos h, h]
    · rw [if_neg h, if_pos rfl]
  · rw [swapAt_lookup array i j j hi hj, if_pos rfl]
  · intro k hki hkj
    rw [swapAt_lookup array i j k hi hj, if_neg hkj, if_neg hki]
  · intro h
    rw [h]
    exact swapAt_self array j
  · rw [permutate_natCast _ i j (by rw [length_swapAt]; exact hi)
      (by rw [length_swapAt]; exact hj), swapAt_swapAt array i j hi hj]

theorem permutate_exchanges_witness :
    (0 < sampleArray.length ∧ 2 < sampleArray.length) ∧
    ∃ out, permutate sampleArray ((0 : Nat) : Int) ((2 : Nat) : Int) = some out ∧
      out.length = sampleArray.length ∧
      out[0]? = sampleArray[2]? ∧ out[2]? = sampleArray[0]? ∧
      (∀ k, k ≠ 0 → k ≠ 2 → out[k]? = sampleArray[k]?) ∧
      (0 = 2 → out = sampleArray) ∧
      permutate out ((0 : Nat) : Int) ((2 : Nat) : Int) = some sampleArray :=
  ⟨⟨by decide, by decide⟩, permutate_exchanges sampleArray 0 2 (by decide) (by decide)⟩

/-- C18: on every input (distinct ranks or not) the number of swaps returned by
`generateBubbleSort` and the number returned by `generateInsertionSort` are both the
number of pairs of positions `a < b` with `rank[a] > rank[b]`; so the two swap lists have
the same length. -/
theorem swap_count_eq_inversionCount (array : VisualisedArray) (q0 q1 : SwapQueue) :
    ∃ qb qi, generateBubbleSort array q0 = some qb ∧
      generateInsertionSort array q1 = some qi ∧
      qb.length = inversionCount array ∧ qi.length = inversionCount array ∧
      qb.length = qi.length := by
  refine ⟨_, _, generateBubbleSort_eq array q0, generateInsertionSort_eq array q1, ?_, ?_, ?_⟩
  · rw [bubbleLoopsP_length, inversionCount_eq_inversions]
  · rw [insertionLoopsP_length, inversionCount_eq_inversions]
  · rw [bubbleLoopsP_length, insertionLoopsP_length]

end SortVisualizer
